import Mathlib

/-!
Verification of the mink versioned storage engine (acorn-io/mink).

This file shallowly embeds, in Lean 4, the parts of the Go source that the
checked claims are about:

* `pkg/db` `Record`, `Criteria`, `WatchCriteria` (types.go)
* `GormDB.Get` / `possibleIDs` / `find` / `validateCriteria` / `Insert` /
  `readEvents` / `Start` / the gc-loop horizon advance (gormdb.go)
* `Strategy.update` / `Strategy.create` / `Strategy.list` /
  `Strategy.Watch`'s per-record event mapping / `objectToRecord`
  (strategy.go)
* the error constructors (errors.go)
* the continuation-token encoding used by `Strategy.list`
  (base64 of `json.Marshal(cont{ID: id})`)

Go machine integers of the relevant kinds (`uint` ids, counters) stay far
from overflow in every code path we model, so they are embedded as `Nat`.
Timestamps are opaque `Nat`s.  The three JSON blobs of a record are
embedded as: a structured metadata value (so that the JSON label queries of
the SQL layer can be evaluated) and opaque byte lists for spec/status;
byte-equality of canonically serialized JSON corresponds to equality of
these values.  Database tables are lists of rows kept in ascending id
order, which is how every query in the source reads them back.
-/

namespace Mink

/-- Opaque JSON blob (serialized bytes) for the `data` and `status` columns. -/
abbrev Blob := List Nat

/-- Structured view of the serialized `metadata` blob: the `labels` JSON object
(queried by `JSONQuery("metadata").Value("labels", key)`) plus the remaining
metadata content, opaque.  Equality of this value models byte-equality of the
canonical JSON serialization. -/
structure JsonMeta where
  labels : List (String × String) := []
  rest : String := ""
deriving Repr, DecidableEq

/-- One immutable row of a mink table (`Record` in pkg/db/types.go).
`status := none` models a SQL NULL / Go nil `datatypes.JSON`. -/
structure Record where
  id : Nat := 0
  kind : String := ""
  version : String := ""
  apiGroup : String := ""
  name : String := ""
  nspace : String := ""
  uid : String := ""
  generation : Int := 0
  previous : Option Nat := none
  create : Bool := false
  created : Nat := 0
  updated : Nat := 0
  deleted : Option Nat := none
  removed : Option Nat := none
  garbage : Bool := false
  latest : Bool := false
  metadata : JsonMeta := {}
  data : Blob := []
  status : Option Blob := none
  partitionID : String := ""
deriving Repr, DecidableEq

instance : Inhabited Record := ⟨{}⟩

/-- Label-selector operators of `k8s.io/apimachinery/pkg/selection` handled by
`GormDB.Get`. -/
inductive LabelOp
  | eq
  | neq
  | opIn
  | opNotIn
  | opExists
  | doesNotExist
deriving Repr, DecidableEq

/-- One requirement of a label selector. -/
structure LabelReq where
  key : String
  op : LabelOp
  values : List String
deriving Repr, DecidableEq

/-- A label selector: its requirements plus the `ok` flag returned by
`Selector.Requirements()`; when `selectable` is false `GormDB.Get` adds
`Where(false)`. -/
structure LabelSelector where
  reqs : List LabelReq
  selectable : Bool := true
deriving Repr, DecidableEq

/-- Query criteria (`Criteria` in pkg/db/types.go).  `after` is exclusive,
`before` inclusive.  The field selector is omitted: no modelled claim uses it
and the criteria built by the modelled call sites leave it nil. -/
structure Criteria where
  name : String := ""
  nspace : Option String := none
  after : Nat := 0
  before : Nat := 0
  noResourceVersion : Bool := false
  limit : Nat := 0
  labelSelector : Option LabelSelector := none
  includeDeleted : Bool := false
  includeGC : Bool := false
  partitionID : String := ""
  ignoreCompactionCheck : Bool := false
deriving Repr, DecidableEq

/-- Watch criteria (`WatchCriteria` in pkg/db/types.go). -/
structure WatchCriteria where
  name : String := ""
  nspace : Option String := none
  after : Nat := 0
  labelSelector : Option LabelSelector := none
  partitionID : String := ""
deriving Repr, DecidableEq

/-- Errors surfaced by the modelled layers (errors.go plus the raw
unique-constraint driver error that `translateDuplicateEntryErr` inspects). -/
inductive MinkError
  | notFound (kind name : String)
  | alreadyExists (kind name : String)
  | conflict (kind name msg : String)
  | resourceExpired (requested current : Nat)
  | uniqueViolation
  | partitionRequired
  | badContinueToken
deriving Repr, DecidableEq

/-- OptimisticLockErrorMsg of errors.go. -/
def OptimisticLockErrorMsg : String :=
  "the object has been modified; please apply your changes to the latest version and try again"

/-- Message used by `translateDuplicateEntryErr` for duplicate-key inserts. -/
def DuplicateEntryMsg : String :=
  "object has been modified, please apply your changes to the latest version and try again"

/-- Group/version/kind descriptor. -/
structure GVK where
  group : String := ""
  version : String := ""
  kind : String := ""
deriving Repr, DecidableEq

/-- The caller-supplied object as `Strategy.update` / `Strategy.create` see
it.  `metadataBytes`/`specBytes`/`statusBytes` stand for the three JSON
serializations computed by `objectToRecord` (after the server-managed
metadata keys are deleted). -/
structure Obj where
  name : String := ""
  nspace : String := ""
  resourceVersion : String := ""
  uid : String := ""
  deletionTimestamp : Option Nat := none
  finalizers : List String := []
  metadataBytes : JsonMeta := {}
  specBytes : Blob := []
  statusBytes : Blob := []
deriving Repr, DecidableEq

/-- In-memory + persisted state of one `GormDB`: the table rows in ascending
id order and the in-memory compaction horizon. -/
structure DBState where
  table : List Record := []
  compaction : Nat := 0
deriving Repr, DecidableEq

/-! ## The query layer (`GormDB.Get`, gormdb.go) -/

/-- Largest id present in the table (`getMaxID`; 0 on an empty table). -/
def maxID (t : List Record) : Nat :=
  t.foldr (fun r m => max r.id m) 0

/-- Resolution of `criteria.Before` performed inside `possibleIDs`:
`NoResourceVersion` forces 0, an unset `before` is replaced by the current
`MAX(id)` snapshot. -/
def resolveBefore (t : List Record) (c : Criteria) : Nat :=
  if c.noResourceVersion then 0
  else if c.before = 0 then maxID t
  else c.before

/-- Predicates of the inner grouped subquery of `possibleIDs`. -/
def innerMatch (c : Criteria) (before : Nat) (r : Record) : Bool :=
  (match c.nspace with
   | some ns => r.nspace = ns
   | none => true) &&
  (if c.name ≠ "" then r.name = c.name else r.name ≠ "") &&
  (c.after = 0 || r.id > c.after) &&
  (before = 0 || r.id ≤ before) &&
  (c.includeGC || !r.garbage)

/-- Grouping key of the subquery: `GROUP BY namespace, name`. -/
def keyOf (r : Record) : String × String :=
  (r.nspace, r.name)

/-- Whether `r` is the `MAX(id)` row of its `(namespace, name)` group among
the rows selected by the inner subquery. -/
def isGroupMax (t : List Record) (inner : Record → Bool) (r : Record) : Bool :=
  t.all fun r2 => !(inner r2 && keyOf r2 = keyOf r) || r2.id ≤ r.id

/-- SQL `json_extract(metadata, '$.labels.key')`: NULL when the key is
absent. -/
def extractLabel (m : JsonMeta) (key : String) : Option String :=
  m.labels.lookup key

/-- SQL equality against a possibly-NULL extracted value: a NULL comparison
is not true, so the row is filtered out. -/
def sqlEq (a : Option String) (v : String) : Bool :=
  match a with
  | some x => x = v
  | none => false

/-- SQL `IN` against a possibly-NULL extracted value. -/
def sqlIn (a : Option String) (vs : List String) : Bool :=
  match a with
  | some x => vs.contains x
  | none => false

/-- SQL `NOT IN` against a possibly-NULL extracted value: NULL yields NULL,
which is not true, so the row is filtered out. -/
def sqlNotIn (a : Option String) (vs : List String) : Bool :=
  match a with
  | some x => !vs.contains x
  | none => false

/-- The WHERE clause `GormDB.Get` adds for one label requirement
(gormdb.go, the `selection.*` branches).  Note that the source's
`selection.NotEquals` branch issues `"? = ?"`, exactly like the Equals
branch; this model reproduces that faithfully.  A requirement for which no
branch fires adds no clause. -/
def labelReqMatch (req : LabelReq) (m : JsonMeta) : Bool :=
  let l := extractLabel m req.key
  match req.op with
  | .eq => if req.key ≠ "" && req.values.length = 1 then sqlEq l (req.values.getD 0 "") else true
  | .opIn => if req.key ≠ "" then sqlIn l req.values else true
  | .opNotIn => if req.key ≠ "" then sqlNotIn l req.values else true
  | .neq => if req.key ≠ "" && req.values.length = 1 then sqlEq l (req.values.getD 0 "") else true
  | .opExists => if req.key ≠ "" then (extractLabel m req.key).isSome else true
  | .doesNotExist => if req.key ≠ "" then !(extractLabel m req.key).isSome else true

/-- Conjunction of the outer-query predicates of `GormDB.Get`: the
`removed is NULL` filter (unless `IncludeDeleted`) and the label-selector
clauses. -/
def outerMatch (c : Criteria) (r : Record) : Bool :=
  (c.includeDeleted || r.removed = none) &&
  (match c.labelSelector with
   | none => true
   | some sel => if sel.selectable then sel.reqs.all (fun req => labelReqMatch req r.metadata) else false)

/-- The rows produced by the two-stage query (`possibleIDs` joined back to
the table, outer predicates and LIMIT applied), in ascending id order. -/
def getRows (t : List Record) (c : Criteria) : List Record :=
  let before := resolveBefore t c
  let inner := innerMatch c before
  let rows := t.filter fun r => inner r && isGroupMax t inner r && outerMatch c r
  if c.limit = 0 then rows else rows.take c.limit

/-- `GormDB.validateCriteria`: both non-zero version-window bounds must be at
or above the in-memory compaction horizon. -/
def validateCriteria (compaction before after : Nat) : Except MinkError Unit :=
  if before ≠ 0 ∧ before < compaction then .error (.resourceExpired before compaction)
  else if after ≠ 0 ∧ after < compaction then .error (.resourceExpired after compaction)
  else .ok ()

/-- `GormDB.Get` composed with `find`: the compaction guard (skipped when
`ignoreCompactionCheck` is set) followed by the row fetch.  Returns the rows
and the resolved `before` snapshot, which callers use as the collection
resource version. -/
def GormDB.get (g : DBState) (c : Criteria) : Except MinkError (List Record × Nat) :=
  if !c.ignoreCompactionCheck then
    match validateCriteria g.compaction c.before c.after with
    | .error e => .error e
    | .ok _ => .ok (getRows g.table c, resolveBefore g.table c)
  else
    .ok (getRows g.table c, resolveBefore g.table c)

/-- The compaction-guard check performed by `GormDB.Watch` before the
subscription is created: `validateCriteria(0, criteria.After)`. -/
def GormDB.watchGuard (compaction after : Nat) : Except MinkError Unit :=
  validateCriteria compaction 0 after

/-! ## Inserts (`GormDB.Insert`, gormdb.go) -/

/-- Set `latest = false` on the row `previous` points at (the
`Update("latest", false)` statement of `GormDB.Insert`). -/
def flipLatest (t : List Record) (p : Nat) : List Record :=
  t.map fun r => if r.id = p then { r with latest := false } else r

/-- `GormDB.Insert`: enforce the unique index on `previous`, flip `latest`
on the predecessor, mark the new row `latest` when it has a name, and
append it with the next auto-increment id (an explicitly set id, as used by
fill records, is kept). -/
def GormDB.insertRecord (t : List Record) (rec : Record) :
    Except MinkError (List Record × Record) :=
  if rec.previous.isSome && t.any (fun r => r.previous = rec.previous) then
    .error .uniqueViolation
  else
    let t1 := match rec.previous with
      | some p => flipLatest t p
      | none => t
    let rec1 := { rec with
      latest := if rec.name ≠ "" then true else rec.latest,
      id := if rec.id = 0 then maxID t + 1 else rec.id }
    .ok (t1 ++ [rec1], rec1)

/-! ## The store strategy (strategy.go) -/

/-- `Strategy.objectToRecord`: serialize the caller's object into a fresh
record.  `freshUid` stands for the `uuid.NewUUID()` call and `now` for
`time.Now()`. -/
def objectToRecord (gvk : GVK) (freshUid : String) (now : Nat) (obj : Obj) : Record :=
  { kind := gvk.kind
    version := gvk.version
    apiGroup := gvk.group
    name := obj.name
    nspace := obj.nspace
    uid := freshUid
    generation := 1
    previous := none
    created := now
    metadata := obj.metadataBytes
    data := obj.specBytes
    status := some obj.statusBytes }

/-- The criteria `Strategy.getExisting` queries with: latest row for the
name, removed and garbage rows included, no resource-version snapshot. -/
def existingCriteria (nspace name partitionID : String) : Criteria :=
  { name := name
    nspace := some nspace
    limit := 1
    noResourceVersion := true
    includeDeleted := true
    includeGC := true
    partitionID := partitionID }

/-- `Strategy.getExisting`: fetch the latest record for the object's name,
including removed and garbage rows (`none` models the not-found case). -/
def getExisting (t : List Record) (nspace name partitionID : String) : Option Record :=
  match GormDB.get ⟨t, 0⟩ (existingCriteria nspace name partitionID) with
  | .ok (rows, _) => rows.head?
  | .error _ => none

/-- `translateDuplicateEntryErr`: rewrite a raw unique-constraint error into
a user-visible conflict, pass everything else through. -/
def translateDuplicateEntryErr (e : MinkError) (gvk : GVK) (objName : String) : MinkError :=
  match e with
  | .uniqueViolation => .conflict gvk.kind objName DuplicateEntryMsg
  | e => e

/-- The record `Strategy.update` builds before inserting: the serialized
object with the carried-over fields of the existing record, then the
status-path or spec-path handling of generation, blobs, and the
deleted/removed transitions (strategy.go lines 396-427). -/
def updatedRecord (gvk : GVK) (freshUid : String) (now : Nat) (statusPath : Bool)
    (existing : Record) (obj : Obj) : Record :=
  let nr0 := objectToRecord gvk freshUid now obj
  let nr1 := { nr0 with
    previous := some existing.id
    created := existing.created
    deleted := existing.deleted
    removed := existing.removed
    uid := existing.uid
    partitionID := existing.partitionID
    updated := now }
  if statusPath then
    { nr1 with
      generation := existing.generation
      data := existing.data
      metadata := existing.metadata }
  else
    let d1 := if nr1.deleted = none ∧ obj.deletionTimestamp ≠ none then
        { nr1 with deleted := obj.deletionTimestamp } else nr1
    let d2 := if d1.removed = none ∧ d1.deleted ≠ none ∧ obj.finalizers = [] then
        { d1 with removed := some now } else d1
    if d2.metadata = existing.metadata ∧ d2.data = existing.data then
      { d2 with generation := existing.generation }
    else
      { d2 with generation := existing.generation + 1, status := existing.status }

/-- `Strategy.update` (also the body of `UpdateStatus` and of `Delete`,
which is implemented as `Update`): optimistic-concurrency check against the
latest existing record, field carry-over and generation/status handling
(`updatedRecord`), then the insert.  `statusPath` is the `status` boolean
of the source. -/
def Strategy.update (gvk : GVK) (partitionIDRequired : Bool) (partitionID : String)
    (freshUid : String) (now : Nat) (statusPath : Bool) (t : List Record) (obj : Obj) :
    Except MinkError (List Record × Record) :=
  if partitionIDRequired ∧ partitionID = "" then
    .error .partitionRequired
  else
  match getExisting t obj.nspace obj.name partitionID with
  | none => .error (.notFound gvk.kind obj.name)
  | some existing =>
    if obj.resourceVersion ≠ toString existing.id then
      .error (.conflict gvk.kind obj.name OptimisticLockErrorMsg)
    else if obj.uid ≠ existing.uid then
      .error (.conflict gvk.kind obj.name "uid precondition failed")
    else
      match GormDB.insertRecord t (updatedRecord gvk freshUid now statusPath existing obj) with
      | .error e => .error (translateDuplicateEntryErr e gvk obj.name)
      | .ok (t2, rec) => .ok (t2, rec)

/-- `Strategy.update` as a state transformer: on any failure the table is
unchanged (the source returns before inserting anything). -/
def Strategy.runUpdate (gvk : GVK) (pidReq : Bool) (pid uid : String) (now : Nat)
    (statusPath : Bool) (t : List Record) (obj : Obj) : List Record × Option MinkError :=
  match Strategy.update gvk pidReq pid uid now statusPath t obj with
  | .ok (t2, _) => (t2, none)
  | .error e => (t, some e)

/-- The record `Strategy.create` builds before inserting: the serialized
object with `Create = true`, `Status = nil`, `Previous` chained to a removed
predecessor when present, and the caller's partition id (strategy.go lines
464-478, collapsing the sequential field assignments). -/
def createdRecord (gvk : GVK) (freshUid : String) (now : Nat) (partitionID : String)
    (obj : Obj) (prev : Option Nat) : Record :=
  { objectToRecord gvk freshUid now obj with
    create := true
    status := none
    previous := prev
    partitionID := partitionID }

/-- `Strategy.create` (run inside a transaction by `Strategy.Create`):
already-exists check against the latest record for the key, construction of
the fresh record (`createdRecord`), then the insert. -/
def Strategy.create (gvk : GVK) (partitionIDRequired : Bool) (partitionID : String)
    (freshUid : String) (now : Nat) (t : List Record) (obj : Obj) :
    Except MinkError (List Record × Record) :=
  if partitionIDRequired ∧ partitionID = "" then
    .error .partitionRequired
  else
  match getExisting t obj.nspace obj.name partitionID with
  | some e =>
    if e.removed = none then
      .error (.alreadyExists gvk.kind obj.name)
    else
      match GormDB.insertRecord t (createdRecord gvk freshUid now partitionID obj (some e.id)) with
      | .error e2 => .error (translateDuplicateEntryErr e2 gvk obj.name)
      | .ok (t2, rec) => .ok (t2, rec)
  | none =>
    match GormDB.insertRecord t (createdRecord gvk freshUid now partitionID obj none) with
    | .error e2 => .error (translateDuplicateEntryErr e2 gvk obj.name)
    | .ok (t2, rec) => .ok (t2, rec)

/-- `Strategy.create` as a state transformer: on any failure the table is
unchanged. -/
def Strategy.runCreate (gvk : GVK) (pidReq : Bool) (pid uid : String) (now : Nat)
    (t : List Record) (obj : Obj) : List Record × Option MinkError :=
  match Strategy.create gvk pidReq pid uid now t obj with
  | .ok (t2, _) => (t2, none)
  | .error e => (t, some e)

/-! ## Watch event mapping (`Strategy.Watch`, strategy.go) -/

/-- Typed watch events as emitted by the goroutine of `Strategy.Watch`.
For Added/Modified/Deleted the payload is the record the object was decoded
from; a Bookmark carries only the resource version written onto the fresh
object. -/
inductive WatchEvent
  | added (r : Record)
  | modified (r : Record)
  | deleted (r : Record)
  | bookmark (resourceVersion : String)
  | errorEvent (name : String)
deriving Repr, DecidableEq

/-- Per-record processing of the `Strategy.Watch` goroutine.  `pred` models
`opts.Predicate.Matches` on the decoded object (`none` models a decode or
match error, yielding an Error event); `allowBookmarks` is
`opts.Predicate.AllowWatchBookmarks`.  `none` means the record is dropped
without emitting an event. -/
def processWatchRecord (c : WatchCriteria) (allowBookmarks : Bool)
    (pred : Record → Option Bool) (r : Record) : Option WatchEvent :=
  if r.name = "" then
    if allowBookmarks then some (.bookmark (toString r.id)) else none
  else if c.partitionID ≠ "" ∧ r.partitionID ≠ c.partitionID then none
  else if c.name ≠ "" ∧ r.name ≠ c.name then none
  else if h : c.nspace.isSome then
    if r.nspace ≠ c.nspace.get h then none else
    match pred r with
    | none => some (.errorEvent r.name)
    | some false => none
    | some true =>
      if r.create then some (.added r)
      else if r.removed ≠ none then some (.deleted r)
      else some (.modified r)
  else
    match pred r with
    | none => some (.errorEvent r.name)
    | some false => none
    | some true =>
      if r.create then some (.added r)
      else if r.removed ≠ none then some (.deleted r)
      else some (.modified r)

/-! ## Watch loop and horizon maintenance (gormdb.go) -/

/-- Parse of `strconv.Atoi` on the namespace payload of a compaction marker,
restricted to the unsigned decimal strings `FormatUint` writes there. -/
def parseMarkerId (s : String) : Option Nat :=
  if s ≠ "" ∧ s.toList.all (fun ch => Nat.ble 48 ch.toNat && Nat.ble ch.toNat 57) then
    some (s.toList.foldl (fun acc ch => acc * 10 + (ch.toNat - 48)) 0)
  else none

/-- Result of one `readEvents` call: the new last-seen id, the new horizon,
the records published on the broadcaster, and the id of the fill record
inserted when a gap was found (if any). -/
structure ReadEventsResult where
  lastID : Nat
  compaction : Nat
  published : List Record
  fillAt : Option Nat
deriving Repr, DecidableEq

/-- The publishing loop of `readEvents`: rows must arrive exactly in
sequence; a compaction marker (empty name, non-empty namespace) advances
the horizon when its payload is strictly greater. -/
def readEventsLoop (records : List Record) (lastID compaction : Nat)
    (published : List Record) : ReadEventsResult :=
  match records with
  | [] => ⟨lastID, compaction, published.reverse, none⟩
  | r :: rest =>
    if r.id ≠ lastID + 1 then
      ⟨lastID, compaction, published.reverse, some (lastID + 1)⟩
    else
      let compaction' :=
        if r.name = "" ∧ r.nspace ≠ "" then
          match parseMarkerId r.nspace with
          | some k => if k > compaction then k else compaction
          | none => compaction
        else compaction
      readEventsLoop rest r.id compaction' (r :: published)

/-- `since(id)`: all rows with `id >` the last seen id, ascending. -/
def since (t : List Record) (id : Nat) : List Record :=
  t.filter fun r => r.id > id

/-- `GormDB.readEvents`: on the first call (`init`) the last-seen id is set
to the current `MAX(id)` before reading; then all newer rows are read and
published in sequence. -/
def GormDB.readEvents (t : List Record) (init : Bool) (lastID compaction : Nat) :
    ReadEventsResult :=
  let lastID := if init then maxID t else lastID
  readEventsLoop (since t lastID) lastID compaction []

/-- The horizon initialization of `GormDB.Start`: "assume everything is
compacted upfront". -/
def GormDB.startCompaction (t : List Record) : Nat :=
  maxID t

/-- The horizon advance of the gc loop (gormdb.go, after `markCompaction`
succeeds): replace the horizon only when the new value is strictly
greater. -/
def gcAdvanceHorizon (compaction nextCompactionID : Nat) : Nat :=
  if nextCompactionID > compaction then nextCompactionID else compaction

/-! ## Continuation tokens (`Strategy.list`, strategy.go)

A continuation token is `base64.StdEncoding.EncodeToString(json.Marshal(cont{ID: id}))`.
Both layers are embedded executably: standard base64 over the byte list, and
the exact byte strings `encoding/json` produces for the `cont` struct
(`\x7b\x7d` for a zero id thanks to `omitempty`, `\x7b"id":<decimal>\x7d`
otherwise); the unmarshal side is modelled on that byte-string domain. -/

/-- The standard base64 alphabet. -/
def b64Alphabet : List Char :=
  "ABCDEFGHIJKLMNOPQRSTUVWXYZabcdefghijklmnopqrstuvwxyz0123456789+/".toList

/-- Character for a 6-bit group. -/
def b64Char (n : Nat) : Char :=
  b64Alphabet.getD n '='

/-- Index of a base64 character (none for padding or foreign characters). -/
def b64Index (c : Char) : Option Nat :=
  b64Alphabet.findIdx? (· == c)

/-- Standard base64 encoding of a byte list, three bytes at a time with
trailing padding. -/
def b64EncodeChunks : List Nat → List Char
  | [] => []
  | [a] => [b64Char (a / 4), b64Char (a % 4 * 16), '=', '=']
  | [a, b] => [b64Char (a / 4), b64Char (a % 4 * 16 + b / 16), b64Char (b % 16 * 4), '=']
  | a :: b :: c :: rest =>
    b64Char (a / 4) :: b64Char (a % 4 * 16 + b / 16) ::
    b64Char (b % 16 * 4 + c / 64) :: b64Char (c % 64) :: b64EncodeChunks rest

/-- Standard base64 decoding, four characters at a time, padding accepted
only in the final group. -/
def b64DecodeList : List Char → Option (List Nat)
  | [] => some []
  | w :: x :: y :: z :: rest => do
    let a ← b64Index w
    let b ← b64Index x
    if y = '=' ∧ z = '=' ∧ rest = [] then
      pure [a * 4 + b / 16]
    else do
      let c ← b64Index y
      if z = '=' ∧ rest = [] then
        pure [a * 4 + b / 16, b % 16 * 16 + c / 4]
      else do
        let d ← b64Index z
        let tail ← b64DecodeList rest
        pure ((a * 4 + b / 16) :: (b % 16 * 16 + c / 4) :: (c % 4 * 64 + d) :: tail)
  | _ => none

/-- Little-endian decimal digits of `n` (`fuel`-guarded division loop). -/
def digitsRevBase10 (fuel n : Nat) : List Nat :=
  match fuel with
  | 0 => []
  | f + 1 => if n = 0 then [] else n % 10 :: digitsRevBase10 f (n / 10)

/-- ASCII bytes of the decimal rendering of a positive integer, as
`strconv`/`encoding/json` produce it. -/
def decimalBytes (n : Nat) : List Nat :=
  ((digitsRevBase10 n n).map (fun d => 48 + d)).reverse

/-- The bytes of `json.Marshal(cont{ID: id})` (`id` tagged `omitempty`). -/
def contMarshalBytes (id : Nat) : List Nat :=
  if id = 0 then [123, 125]
  else [123, 34, 105, 100, 34, 58] ++ decimalBytes id ++ [125]

/-- Parse of an all-digits byte string. -/
def parseDecimalBytes (bs : List Nat) : Option Nat :=
  if bs ≠ [] ∧ bs.all (fun b => Nat.ble 48 b && Nat.ble b 57) then
    some (bs.foldl (fun a b => a * 10 + (b - 48)) 0)
  else none

/-- `json.Unmarshal` into the `cont` struct, on the byte strings the
marshal side produces. -/
def contUnmarshal (bs : List Nat) : Option Nat :=
  if bs = [123, 125] then some 0
  else if bs.take 6 = [123, 34, 105, 100, 34, 58] ∧ bs.getLast? = some 125 then
    parseDecimalBytes ((bs.drop 6).dropLast)
  else none

/-- The continuation token `Strategy.list` emits for a page ending at row
`id`. -/
def encodeContinue (id : Nat) : String :=
  String.mk (b64EncodeChunks (contMarshalBytes id))

/-- The decode `Strategy.list` performs on `opts.Predicate.Continue`. -/
def decodeContinue (s : String) : Option Nat :=
  (b64DecodeList s.toList).bind contUnmarshal

/-! ## `Strategy.list` -/

/-- The list options the model consumes (`storage.ListOptions.Predicate`). -/
structure ListOpts where
  limit : Nat := 0
  continueTok : String := ""
  labelSelector : Option LabelSelector := none
deriving Repr, DecidableEq

/-- The `listResult` of strategy.go, with items as the records the returned
objects are decoded from. -/
structure ListResult where
  items : List Record
  continueTok : String
  resourceVersion : String
  remainingCount : Option Int
deriving Repr, DecidableEq

/-- The criteria `Strategy.list` sends to the database: the (already
incremented) limit, and — when resuming — the decoded continuation id as the
exclusive `after` bound with the compaction check disabled. -/
def listCriteria (nspace : Option String) (pid : String) (limit : Nat)
    (sel : Option LabelSelector) (after : Nat) : Criteria :=
  { nspace := nspace
    limit := limit
    labelSelector := sel
    partitionID := pid
    after := after
    ignoreCompactionCheck := after ≠ 0 }

/-- The Go slice expression `objs[0 : len(objs)-1]` of the continuation
branch of `Strategy.list`: when the slice is empty the high bound is -1 and
the expression panics at runtime (`none`); otherwise it drops the last
element. -/
def goSliceDropLast (l : List Record) : Option (List Record) :=
  if l = [] then none else some l.dropLast

/-- `Strategy.list`: bump a non-zero limit by one, decode any continuation
token, query, filter by the caller's predicate (`opts.Predicate.Matches`,
modelled by `pred`), and emit a continuation exactly when the database
returned a full `limit + 1` page — encoding the id of the second-to-last
fetched row and dropping the last object of the page via
`objs[0 : len(objs)-1]`.  The outer `none` models the Go runtime panic of
that slice expression when the predicate re-check rejected every fetched
row: the call then returns nothing at all. -/
def Strategy.list (g : DBState) (nspace : Option String) (pid : String)
    (pred : Record → Bool) (opts : ListOpts) : Option (Except MinkError ListResult) :=
  let limit := if opts.limit ≠ 0 then opts.limit + 1 else 0
  let afterE : Except MinkError Nat :=
    if opts.continueTok ≠ "" then
      match decodeContinue opts.continueTok with
      | some k => .ok k
      | none => .error .badContinueToken
    else .ok 0
  match afterE with
  | .error e => some (.error e)
  | .ok after =>
    let c := listCriteria nspace pid limit opts.labelSelector after
    match GormDB.get g c with
    | .error e => some (.error e)
    | .ok (records, rvInt) =>
      let objs := records.filter pred
      if limit ≠ 0 ∧ records.length = limit then
        match goSliceDropLast objs with
        | none => none
        | some items =>
          some (.ok { items := items
                      continueTok := encodeContinue ((records.getD (records.length - 2) default).id)
                      resourceVersion := toString rvInt
                      remainingCount := some 1 })
      else
        some (.ok { items := objs
                    continueTok := ""
                    resourceVersion := toString rvInt
                    remainingCount := none })

/-! ## Query-layer lemmas

The history rows of one logical `(namespace, name)` key, and the
characterization of the limit-1 latest-row lookup (`getExisting`) as the
last element of that history (tables are kept in ascending id order). -/

/-- All rows of the logical key `(nspace, name)`, in table (= id) order. -/
def rowsOf (t : List Record) (ns name : String) : List Record :=
  t.filter fun r => r.nspace = ns && r.name = name

/-- Strict ascending-id ordering of a row list. -/
def IdSorted (t : List Record) : Prop :=
  t.Pairwise fun a b => a.id < b.id

theorem le_maxID {t : List Record} {r : Record} (h : r ∈ t) : r.id ≤ maxID t := by
  induction t with
  | nil => cases h
  | cons a s ih =>
    rcases List.mem_cons.mp h with rfl | hs
    · simp [maxID]
    · have := ih hs
      simp only [maxID, List.foldr_cons] at *
      omega

theorem getLast?_mem {l : List Record} {m : Record} (h : l.getLast? = some m) : m ∈ l := by
  cases l with
  | nil => simp at h
  | cons a s =>
    have := List.getLast?_eq_getLast (a :: s) (by simp)
    rw [this] at h
    exact (Option.some.injEq _ _).mp h ▸ List.getLast_mem (by simp)

theorem sorted_le_getLast {l : List Record} (hs : IdSorted l) {m : Record}
    (hm : l.getLast? = some m) : ∀ x ∈ l, x.id ≤ m.id := by
  induction l with
  | nil => simp at hm
  | cons a s ih =>
    intro x hx
    cases s with
    | nil =>
      rw [List.getLast?_singleton] at hm
      rcases List.mem_singleton.mp hx with rfl
      injection hm with h
      simp [h]
    | cons b s2 =>
      rw [List.getLast?_cons_cons] at hm
      rcases List.mem_cons.mp hx with rfl | hx2
      · have hmem : m ∈ b :: s2 := getLast?_mem hm
        have := (List.pairwise_cons.mp hs).1 m hmem
        omega
      · exact ih (List.pairwise_cons.mp hs).2 hm x hx2

/-- The max-among-selected-rows condition, key comparison elided. -/
def allQ (t : List Record) (P : Record → Bool) (r : Record) : Bool :=
  t.all fun r2 => !P r2 || r2.id ≤ r.id

theorem isGroupMax_eq_allQ {P : Record → Bool} {t : List Record} {r : Record}
    (hP : P r = true) (hkey : ∀ a b, P a = true → P b = true → keyOf a = keyOf b) :
    isGroupMax t P r = allQ t P r := by
  unfold isGroupMax allQ
  congr 1
  funext r2
  by_cases h2 : P r2 = true
  · simp [h2, hkey r2 r h2 hP]
  · simp [Bool.eq_false_iff.mpr h2]

theorem filter_allQ_eq_getLast (P : Record → Bool) {t : List Record} (hs : IdSorted t) :
    t.filter (fun r => P r && allQ t P r) = (t.filter P).getLast?.toList := by
  induction t with
  | nil => simp
  | cons a s ih =>
    have hpair := List.pairwise_cons.mp hs
    have hfa : ∀ b ∈ s, a.id < b.id := hpair.1
    have hstail : IdSorted s := hpair.2
    have hcongr : s.filter (fun r => P r && allQ (a :: s) P r)
        = s.filter (fun r => P r && allQ s P r) := by
      apply List.filter_congr
      intro r hr
      by_cases hPr : P r = true
      · have : (!P a || a.id ≤ r.id) = true := by
          by_cases hPa : P a = true
          · simp [hPa, Nat.le_of_lt (hfa r hr)]
          · simp [Bool.eq_false_iff.mpr hPa]
        simp [allQ, List.all_cons, this, hPr]
      · simp [Bool.eq_false_iff.mpr hPr]
    rw [List.filter_cons, List.filter_cons]
    by_cases hPa : P a = true
    · by_cases hye : s.filter P = []
      · have hnone : ∀ r ∈ s, P r = false := by
          intro r hr
          by_cases h : P r = true
          · exact absurd (List.mem_filter.mpr ⟨hr, h⟩) (by simp [hye])
          · exact Bool.eq_false_iff.mpr h
        have haq : allQ (a :: s) P a = true := by
          unfold allQ
          rw [List.all_cons]
          have h1 : (!P a || a.id ≤ a.id) = true := by simp
          rw [h1, Bool.true_and, List.all_eq_true]
          intro r hr
          simp [hnone r hr]
        have hrest : s.filter (fun r => P r && allQ (a :: s) P r) = [] := by
          rw [hcongr]
          apply List.filter_eq_nil_iff.mpr
          intro r hr
          simp [hnone r hr]
        simp [hPa, haq, hrest, hye]
      · obtain ⟨b, hb⟩ := List.exists_mem_of_ne_nil _ hye
        have hbs : b ∈ s := (List.mem_filter.mp hb).1
        have hPb : P b = true := (List.mem_filter.mp hb).2
        have haq : allQ (a :: s) P a = false := by
          simp only [allQ, List.all_cons]
          apply Bool.and_eq_false_iff.mpr
          right
          apply List.all_eq_false.mpr
          refine ⟨b, hbs, ?_⟩
          simp [hPb]
          exact hfa b hbs
        have hlast : (a :: s.filter P).getLast? = (s.filter P).getLast? := by
          cases hfe : s.filter P with
          | nil => exact absurd hfe hye
          | cons c cs => simp [List.getLast?_cons_cons]
        have hfa' : (P a && allQ (a :: s) P a) = false := by simp [hPa, haq]
        rw [hfa']
        simp only [Bool.false_eq_true, if_false, hPa, if_true]
        rw [hcongr, ih hstail, hlast]
    · have hPa' : P a = false := Bool.eq_false_iff.mpr hPa
      have hfa' : (P a && allQ (a :: s) P a) = false := by simp [hPa']
      rw [hfa']
      simp only [hPa', Bool.false_eq_true, if_false]
      rw [hcongr, ih hstail]

/-- The key predicate of `rowsOf` as a Bool-valued function. -/
def keyPred (ns name : String) (r : Record) : Bool :=
  r.nspace = ns && r.name = name

theorem keyPred_keyOf {ns name : String} (a b : Record)
    (ha : keyPred ns name a = true) (hb : keyPred ns name b = true) : keyOf a = keyOf b := by
  unfold keyPred at ha hb
  simp only [Bool.and_eq_true, decide_eq_true_eq] at ha hb
  unfold keyOf
  rw [ha.1, ha.2, hb.1, hb.2]

/-- The limit-1 latest-row lookup of `Strategy.getExisting` returns exactly
the last (max-id) history row of the object's `(namespace, name)` key. -/
theorem getExisting_eq {t : List Record} (hs : IdSorted t) (ns name pid : String)
    (hname : name ≠ "") :
    getExisting t ns name pid = (rowsOf t ns name).getLast? := by
  have hfun : (fun r => innerMatch (existingCriteria ns name pid) 0 r
        && isGroupMax t (innerMatch (existingCriteria ns name pid) 0) r
        && outerMatch (existingCriteria ns name pid) r)
      = fun r => keyPred ns name r && isGroupMax t (keyPred ns name) r := by
    funext r
    have hinner : innerMatch (existingCriteria ns name pid) 0 = keyPred ns name := by
      funext r2
      simp [innerMatch, existingCriteria, keyPred, hname]
    have houter : outerMatch (existingCriteria ns name pid) r = true := by
      simp [outerMatch, existingCriteria]
    rw [hinner, houter, Bool.and_true]
  have hfilter : t.filter (fun r => keyPred ns name r && isGroupMax t (keyPred ns name) r)
      = (rowsOf t ns name).getLast?.toList := by
    have hcongr : t.filter (fun r => keyPred ns name r && isGroupMax t (keyPred ns name) r)
        = t.filter (fun r => keyPred ns name r && allQ t (keyPred ns name) r) := by
      apply List.filter_congr
      intro r _
      by_cases hP : keyPred ns name r = true
      · rw [isGroupMax_eq_allQ hP (keyPred_keyOf)]
      · simp [Bool.eq_false_iff.mpr hP]
    rw [hcongr, filter_allQ_eq_getLast (keyPred ns name) hs]
    rfl
  have hrows : getRows t (existingCriteria ns name pid)
      = (rowsOf t ns name).getLast?.toList := by
    have hstep : getRows t (existingCriteria ns name pid)
        = (t.filter (fun r => innerMatch (existingCriteria ns name pid) 0 r
            && isGroupMax t (innerMatch (existingCriteria ns name pid) 0) r
            && outerMatch (existingCriteria ns name pid) r)).take 1 := rfl
    rw [hstep, hfun, hfilter]
    cases (rowsOf t ns name).getLast? <;> rfl
  have hget : GormDB.get ⟨t, 0⟩ (existingCriteria ns name pid)
      = .ok (getRows t (existingCriteria ns name pid), 0) := rfl
  unfold getExisting
  rw [hget, hrows]
  cases (rowsOf t ns name).getLast? <;> rfl

/-! ## The table well-formedness invariant -/

/-- Number of rows of a key currently flagged `latest`. -/
def latestCount (t : List Record) (ns name : String) : Nat :=
  ((rowsOf t ns name).filter (fun r => r.latest)).length

/-- Every `previous` pointer goes strictly backwards to a row of the same
logical key. -/
def prevKeyOK (t : List Record) : Bool :=
  t.all fun r =>
    match r.previous with
    | none => true
    | some p => decide (p < r.id) &&
        t.any (fun r2 => r2.id = p && r2.nspace = r.nspace && r2.name = r.name)

/-- Structural well-formedness of a table: ids strictly ascending and
positive, `latest` set exactly on the last history row of each named key,
`previous` pointers within-key and backwards. -/
def TableInv (t : List Record) : Prop :=
  IdSorted t ∧
  (∀ r ∈ t, 1 ≤ r.id) ∧
  (∀ r ∈ t, r.latest = (decide (r.name ≠ "") &&
    decide ((rowsOf t r.nspace r.name).getLast? = some r))) ∧
  prevKeyOK t = true

instance (t : List Record) : Decidable (TableInv t) := by
  unfold TableInv IdSorted
  infer_instance

theorem id_unique {t : List Record} (hs : IdSorted t) {a b : Record}
    (ha : a ∈ t) (hb : b ∈ t) (hid : a.id = b.id) : a = b := by
  induction t with
  | nil => cases ha
  | cons c s ih =>
    have hpair := List.pairwise_cons.mp hs
    rcases List.mem_cons.mp ha with rfl | ha2
    · rcases List.mem_cons.mp hb with rfl | hb2
      · rfl
      · exact absurd hid (by have := hpair.1 b hb2; omega)
    · rcases List.mem_cons.mp hb with rfl | hb2
      · exact absurd hid.symm (by have := hpair.1 a ha2; omega)
      · exact ih hpair.2 ha2 hb2

theorem rowsOf_sublist {t : List Record} {ns name : String} :
    ∀ r ∈ rowsOf t ns name, r ∈ t ∧ r.nspace = ns ∧ r.name = name := by
  intro r hr
  have h := List.mem_filter.mp hr
  have h2 := h.2
  simp only [Bool.and_eq_true, decide_eq_true_eq] at h2
  exact ⟨h.1, h2.1, h2.2⟩

/-- While a named key has history rows, exactly one of them carries
`latest = true`; with no rows, none does. -/
theorem latestCount_of_inv {t : List Record} (inv : TableInv t) (ns name : String)
    (hname : name ≠ "") :
    latestCount t ns name = if rowsOf t ns name = [] then 0 else 1 := by
  obtain ⟨hsorted, _, hlatest, _⟩ := inv
  by_cases hnil : rowsOf t ns name = []
  · simp [latestCount, hnil]
  · simp only [hnil, if_false]
    obtain ⟨m, hm⟩ : ∃ m, (rowsOf t ns name).getLast? = some m := by
      cases hl : (rowsOf t ns name).getLast? with
      | none => exact absurd (List.getLast?_eq_none_iff.mp hl) hnil
      | some m => exact ⟨m, rfl⟩
    have hfeq : (rowsOf t ns name).filter (fun r => r.latest)
        = (rowsOf t ns name).filter (fun r => r == m) := by
      apply List.filter_congr
      intro r hr
      obtain ⟨hrt, hrns, hrname⟩ := rowsOf_sublist r hr
      have hkey : rowsOf t r.nspace r.name = rowsOf t ns name := by rw [hrns, hrname]
      have := hlatest r hrt
      rw [hkey, hm] at this
      rw [this]
      by_cases hrm : r = m
      · subst hrm
        simp [hrname ▸ hname]
      · have hne : ¬ (some m = some r) := by
          intro h
          injection h with h2
          exact hrm h2.symm
        simp [hne, hrm]
    have hnodup : (rowsOf t ns name).Nodup := by
      have hsub : IdSorted (rowsOf t ns name) := List.Pairwise.sublist (List.filter_sublist t) hsorted
      exact List.Pairwise.imp (fun h => by intro he; rw [he] at h; omega) hsub
    have hmem : m ∈ rowsOf t ns name := getLast?_mem hm
    unfold latestCount
    rw [hfeq]
    have := List.count_eq_one_of_mem hnodup hmem
    rw [List.count_eq_countP, List.countP_eq_length_filter] at this
    exact this

/-! ## Behaviour of `flipLatest` -/

/-- The per-row function of `flipLatest`. -/
def flipOne (p : Nat) (r : Record) : Record :=
  if r.id = p then { r with latest := false } else r

theorem flipLatest_eq_map (t : List Record) (p : Nat) :
    flipLatest t p = t.map (flipOne p) := rfl

theorem flipOne_id (p : Nat) (r : Record) : (flipOne p r).id = r.id := by
  unfold flipOne
  by_cases h : r.id = p <;> simp [h]

theorem flipOne_name (p : Nat) (r : Record) : (flipOne p r).name = r.name := by
  unfold flipOne
  by_cases h : r.id = p <;> simp [h]

theorem flipOne_nspace (p : Nat) (r : Record) : (flipOne p r).nspace = r.nspace := by
  unfold flipOne
  by_cases h : r.id = p <;> simp [h]

theorem flipOne_previous (p : Nat) (r : Record) : (flipOne p r).previous = r.previous := by
  unfold flipOne
  by_cases h : r.id = p <;> simp [h]

theorem flipOne_removed (p : Nat) (r : Record) : (flipOne p r).removed = r.removed := by
  unfold flipOne
  by_cases h : r.id = p <;> simp [h]

theorem rowsOf_flipLatest (t : List Record) (p : Nat) (ns name : String) :
    rowsOf (flipLatest t p) ns name = flipLatest (rowsOf t ns name) p := by
  rw [flipLatest_eq_map, flipLatest_eq_map]
  unfold rowsOf
  rw [List.filter_map]
  congr 1
  apply List.filter_congr
  intro r _
  simp [Function.comp, flipOne_nspace, flipOne_name]

theorem flipLatest_id_of_absent {t : List Record} {p : Nat}
    (h : ∀ r ∈ t, r.id ≠ p) : flipLatest t p = t := by
  rw [flipLatest_eq_map]
  conv_rhs => rw [show t = t.map id from (List.map_id t).symm]
  apply List.map_congr_left
  intro r hr
  unfold flipOne
  simp [h r hr]

theorem IdSorted_flipLatest {t : List Record} (hs : IdSorted t) (p : Nat) :
    IdSorted (flipLatest t p) := by
  rw [flipLatest_eq_map]
  unfold IdSorted
  rw [List.pairwise_map]
  exact hs.imp (by intro a b h; rw [flipOne_id, flipOne_id]; exact h)

theorem maxID_flipLatest (t : List Record) (p : Nat) :
    maxID (flipLatest t p) = maxID t := by
  rw [flipLatest_eq_map]
  induction t with
  | nil => rfl
  | cons a s ih =>
    simp only [List.map_cons, maxID, List.foldr_cons] at *
    rw [flipOne_id, ih]

theorem rowsOf_append (t1 t2 : List Record) (ns name : String) :
    rowsOf (t1 ++ t2) ns name = rowsOf t1 ns name ++ rowsOf t2 ns name :=
  List.filter_append _ _

/-! ## Insert preservation -/

/-- The record as `GormDB.Insert` actually stores it: `latest` set (for a
named row) and the auto-increment id assigned. -/
def storedRecord (t : List Record) (rec : Record) : Record :=
  { rec with latest := true, id := maxID t + 1 }

theorem mem_rowsOf {t : List Record} {r : Record} {ns name : String} :
    r ∈ rowsOf t ns name ↔ (r ∈ t ∧ r.nspace = ns ∧ r.name = name) := by
  unfold rowsOf
  rw [List.mem_filter]
  simp

/-- Extraction from `prevKeyOK`: every `previous` pointer present in the
table points strictly backwards to a same-key row. -/
theorem prevKeyOK_spec {t : List Record} (h : prevKeyOK t = true) {r : Record}
    (hr : r ∈ t) {p : Nat} (hp : r.previous = some p) :
    p < r.id ∧ ∃ r2 ∈ t, r2.id = p ∧ r2.nspace = r.nspace ∧ r2.name = r.name := by
  have := List.all_eq_true.mp h r hr
  rw [hp] at this
  simp only [Bool.and_eq_true, decide_eq_true_eq, List.any_eq_true] at this
  obtain ⟨h1, r2, hr2, h2⟩ := this
  exact ⟨h1, r2, hr2, h2.1.1, h2.1.2, h2.2⟩

/-- Under the invariant, an insert whose `previous` pointer is either absent
(fresh key) or the current last row of the key succeeds, appends exactly one
row, and preserves the invariant. -/
theorem insert_preserves {t : List Record} (inv : TableInv t) {rec : Record}
    (hname : rec.name ≠ "") (hid : rec.id = 0)
    (hprev : (rowsOf t rec.nspace rec.name = [] ∧ rec.previous = none)
           ∨ (∃ m, (rowsOf t rec.nspace rec.name).getLast? = some m ∧
               rec.previous = some m.id)) :
    GormDB.insertRecord t rec =
      .ok ((match rec.previous with
            | some p => flipLatest t p
            | none => t) ++ [storedRecord t rec], storedRecord t rec) ∧
    TableInv ((match rec.previous with
            | some p => flipLatest t p
            | none => t) ++ [storedRecord t rec]) := by
  obtain ⟨hsorted, hpos, hlatestEq, hprevOK⟩ := inv
  have hmax_lt : ∀ r ∈ t, r.id < maxID t + 1 := fun r hr =>
    Nat.lt_succ_of_le (le_maxID hr)
  have hrec1 : ({ rec with
      latest := if rec.name ≠ "" then true else rec.latest,
      id := if rec.id = 0 then maxID t + 1 else rec.id }) = storedRecord t rec := by
    unfold storedRecord
    rw [if_pos hname, if_pos hid]
  have hnosucc : ∀ m, (rowsOf t rec.nspace rec.name).getLast? = some m →
      ∀ r ∈ t, ¬ (r.previous = some m.id) := by
    intro m hm r hr hrp
    obtain ⟨hlt, r2, hr2t, hr2id, hr2ns, hr2nm⟩ := prevKeyOK_spec hprevOK hr hrp
    obtain ⟨hmt, hmns, hmnm⟩ := rowsOf_sublist m (getLast?_mem hm)
    have hr2m : r2 = m := id_unique hsorted hr2t hmt (by rw [hr2id])
    have hrmem : r ∈ rowsOf t rec.nspace rec.name := by
      rw [mem_rowsOf]
      refine ⟨hr, ?_, ?_⟩
      · rw [← hr2ns, hr2m, hmns]
      · rw [← hr2nm, hr2m, hmnm]
    have hsub : IdSorted (rowsOf t rec.nspace rec.name) :=
      List.Pairwise.sublist (List.filter_sublist t) hsorted
    have := sorted_le_getLast hsub hm r hrmem
    omega
  have hcheck : (rec.previous.isSome && t.any (fun r => r.previous = rec.previous)) = false := by
    rcases hprev with ⟨_, hp⟩ | ⟨m, hm, hp⟩
    · simp [hp]
    · rw [hp]
      simp only [Option.isSome_some, Bool.true_and]
      apply List.any_eq_false.mpr
      intro r hr
      simp only [decide_eq_true_eq]
      exact hnosucc m hm r hr
  have hins : GormDB.insertRecord t rec =
      .ok ((match rec.previous with
            | some p => flipLatest t p
            | none => t) ++ [storedRecord t rec], storedRecord t rec) := by
    unfold GormDB.insertRecord
    rw [hcheck]
    simp only [Bool.false_eq_true, if_false, hrec1]
  refine ⟨hins, ?_⟩
  -- invariant preservation
  rcases hprev with ⟨hempty, hp⟩ | ⟨m, hm, hp⟩
  · -- fresh key, no predecessor
    have hmatch : (match rec.previous with
        | some p => flipLatest t p
        | none => t) = t := by rw [hp]
    rw [hmatch]
    set rec1 := storedRecord t rec with hrec1def
    have hr1id : rec1.id = maxID t + 1 := rfl
    have hr1name : rec1.name = rec.name := rfl
    have hr1ns : rec1.nspace = rec.nspace := rfl
    refine ⟨?_, ?_, ?_, ?_⟩
    · -- sorted
      unfold IdSorted
      rw [List.pairwise_append]
      refine ⟨hsorted, List.pairwise_singleton _ _, ?_⟩
      intro a ha b hb
      rw [List.mem_singleton.mp hb, hr1id]
      exact hmax_lt a ha
    · -- positive ids
      intro r hr
      rcases List.mem_append.mp hr with h | h
      · exact hpos r h
      · rw [List.mem_singleton.mp h, hr1id]; omega
    · -- latest flags
      intro r hr
      rcases List.mem_append.mp hr with h | h
      · by_cases hk : r.nspace = rec.nspace ∧ r.name = rec.name
        · exact absurd (mem_rowsOf.mpr ⟨h, hk.1, hk.2⟩) (by rw [hempty]; simp)
        · have hr1k : ¬ (rec1.nspace = r.nspace ∧ rec1.name = r.name) := by
            rw [hr1ns, hr1name]
            intro hc
            exact hk ⟨hc.1.symm, hc.2.symm⟩
          have hrows : rowsOf (t ++ [rec1]) r.nspace r.name = rowsOf t r.nspace r.name := by
            rw [rowsOf_append]
            have : rowsOf [rec1] r.nspace r.name = [] := by
              unfold rowsOf
              rw [List.filter_eq_nil_iff]
              intro a ha
              rw [List.mem_singleton.mp ha]
              simp only [Bool.and_eq_true, decide_eq_true_eq, not_and]
              intro h1 h2
              exact hr1k ⟨h1, h2⟩
            rw [this, List.append_nil]
          rw [hrows]
          exact hlatestEq r h
      · rw [List.mem_singleton.mp h]
        have hrows : rowsOf (t ++ [rec1]) rec1.nspace rec1.name = [rec1] := by
          rw [rowsOf_append, hr1ns, hr1name, hempty]
          unfold rowsOf
          simp [hr1ns, hr1name]
        rw [hrows]
        simp [hr1name, hname]
        rfl
    · -- previous pointers
      apply List.all_eq_true.mpr
      intro r hr
      rcases List.mem_append.mp hr with h | h
      · have := List.all_eq_true.mp hprevOK r h
        cases hpr : r.previous with
        | none => simp
        | some p =>
          rw [hpr] at this
          simp only [Bool.and_eq_true, List.any_eq_true] at this ⊢
          obtain ⟨h1, r2, hr2, h2⟩ := this
          exact ⟨h1, r2, List.mem_append_left _ hr2, h2⟩
      · rw [List.mem_singleton.mp h]
        have : rec1.previous = none := hp
        rw [this]
  · -- predecessor is the current last row of the key
    have hmatch : (match rec.previous with
        | some p => flipLatest t p
        | none => t) = flipLatest t m.id := by rw [hp]
    rw [hmatch]
    set rec1 := storedRecord t rec with hrec1def
    have hr1id : rec1.id = maxID t + 1 := rfl
    have hr1name : rec1.name = rec.name := rfl
    have hr1ns : rec1.nspace = rec.nspace := rfl
    have hr1prev : rec1.previous = rec.previous := rfl
    obtain ⟨hmt, hmns, hmnm⟩ := rowsOf_sublist m (getLast?_mem hm)
    have hmid_le : m.id ≤ maxID t := le_maxID hmt
    have hkeyrows : rowsOf (flipLatest t m.id ++ [rec1]) rec.nspace rec.name
        = flipLatest (rowsOf t rec.nspace rec.name) m.id ++ [rec1] := by
      rw [rowsOf_append, rowsOf_flipLatest]
      congr 1
      unfold rowsOf
      simp [hr1ns, hr1name]
    refine ⟨?_, ?_, ?_, ?_⟩
    · -- sorted
      unfold IdSorted
      rw [List.pairwise_append]
      refine ⟨IdSorted_flipLatest hsorted m.id, List.pairwise_singleton _ _, ?_⟩
      intro a ha b hb
      rw [List.mem_singleton.mp hb, hr1id]
      rw [flipLatest_eq_map] at ha
      obtain ⟨a0, ha0, rfl⟩ := List.mem_map.mp ha
      rw [flipOne_id]
      exact hmax_lt a0 ha0
    · -- positive ids
      intro r hr
      rcases List.mem_append.mp hr with h | h
      · rw [flipLatest_eq_map] at h
        obtain ⟨a0, ha0, rfl⟩ := List.mem_map.mp h
        rw [flipOne_id]
        exact hpos a0 ha0
      · rw [List.mem_singleton.mp h, hr1id]; omega
    · -- latest flags
      intro r hr
      rcases List.mem_append.mp hr with h | h
      · rw [flipLatest_eq_map] at h
        obtain ⟨a0, ha0, rfl⟩ := List.mem_map.mp h
        by_cases hk : a0.nspace = rec.nspace ∧ a0.name = rec.name
        · -- same key as the insert: the stored row is not the last any more
          have hrows2 : rowsOf (flipLatest t m.id ++ [rec1]) (flipOne m.id a0).nspace
              (flipOne m.id a0).name = flipLatest (rowsOf t rec.nspace rec.name) m.id ++ [rec1] := by
            rw [flipOne_nspace, flipOne_name, hk.1, hk.2]
            exact hkeyrows
          rw [hrows2, List.getLast?_concat]
          have hne : ¬ (some rec1 = some (flipOne m.id a0)) := by
            intro hc
            injection hc with hc2
            have : rec1.id = (flipOne m.id a0).id := by rw [hc2]
            rw [hr1id, flipOne_id] at this
            have := hmax_lt a0 ha0
            omega
          have hrhs : (decide ((flipOne m.id a0).name ≠ "") &&
              decide ((some rec1 : Option Record) = some (flipOne m.id a0))) = false := by
            simp [hne]
          rw [hrhs]
          by_cases hidm : a0.id = m.id
          · have ha0m : a0 = m := id_unique hsorted ha0 hmt hidm
            subst ha0m
            unfold flipOne
            simp
          · have hflip : flipOne m.id a0 = a0 := by unfold flipOne; simp [hidm]
            rw [hflip]
            have := hlatestEq a0 ha0
            rw [hk.1, hk.2, hm] at this
            have hne2 : ¬ ((some m : Option Record) = some a0) := by
              intro hc
              injection hc with hc2
              rw [← hc2] at hidm
              exact hidm rfl
            rw [this]
            simp [hne2]
        · -- a different key: its rows are untouched
          have hnomid : ∀ x ∈ rowsOf t a0.nspace a0.name, x.id ≠ m.id := by
            intro x hx hxid
            obtain ⟨hxt, hxns, hxnm⟩ := rowsOf_sublist x hx
            have hxm : x = m := id_unique hsorted hxt hmt hxid
            apply hk
            constructor
            · rw [← hxns, hxm, hmns]
            · rw [← hxnm, hxm, hmnm]
          have hflip : flipOne m.id a0 = a0 := by
            unfold flipOne
            have : a0.id ≠ m.id := by
              intro hc
              have ha0m : a0 = m := id_unique hsorted ha0 hmt hc
              apply hk
              rw [ha0m]
              exact ⟨hmns, hmnm⟩
            simp [this]
          rw [hflip]
          have hrows2 : rowsOf (flipLatest t m.id ++ [rec1]) a0.nspace a0.name
              = rowsOf t a0.nspace a0.name := by
            rw [rowsOf_append, rowsOf_flipLatest, flipLatest_id_of_absent hnomid]
            have : rowsOf [rec1] a0.nspace a0.name = [] := by
              unfold rowsOf
              rw [List.filter_eq_nil_iff]
              intro a ha
              rw [List.mem_singleton.mp ha]
              simp only [Bool.and_eq_true, decide_eq_true_eq, not_and]
              intro h1 h2
              exact hk ⟨by rw [← hr1ns, h1], by rw [← hr1name, h2]⟩
            rw [this, List.append_nil]
          rw [hrows2]
          exact hlatestEq a0 ha0
      · rw [List.mem_singleton.mp h]
        rw [show rec1.nspace = rec.nspace from hr1ns, show rec1.name = rec.name from hr1name,
          hkeyrows, List.getLast?_concat]
        simp [hr1name, hname]
        rfl
    · -- previous pointers
      apply List.all_eq_true.mpr
      intro r hr
      rcases List.mem_append.mp hr with h | h
      · rw [flipLatest_eq_map] at h
        obtain ⟨a0, ha0, rfl⟩ := List.mem_map.mp h
        rw [flipOne_previous]
        cases hpr : a0.previous with
        | none => simp
        | some p =>
          obtain ⟨h1, r2, hr2t, hr2id, hr2ns, hr2nm⟩ := prevKeyOK_spec hprevOK ha0 hpr
          simp only [Bool.and_eq_true, List.any_eq_true, decide_eq_true_eq]
          refine ⟨by rw [flipOne_id]; exact h1,
        ⟨flipOne m.id r2, List.mem_append_left _ ?_, ?_⟩⟩
          · rw [flipLatest_eq_map]
            exact List.mem_map.mpr ⟨r2, hr2t, rfl⟩
          · constructor
            · constructor
              · rw [flipOne_id]; exact hr2id
              · rw [flipOne_nspace, flipOne_nspace]; exact hr2ns
            · rw [flipOne_name, flipOne_name]; exact hr2nm
      · rw [List.mem_singleton.mp h]
        rw [show rec1.previous = rec.previous from hr1prev, hp]
        simp only [Bool.and_eq_true, List.any_eq_true, decide_eq_true_eq]
        refine ⟨by rw [hr1id]; omega, ⟨flipOne m.id m, List.mem_append_left _ ?_, ?_⟩⟩
        · rw [flipLatest_eq_map]
          exact List.mem_map.mpr ⟨m, hmt, rfl⟩
        · constructor
          · constructor
            · rw [flipOne_id]
            · rw [flipOne_nspace, hr1ns, hmns]
          · rw [flipOne_name, hr1name, hmnm]

/-! ## Field facts about the built records -/

theorem updatedRecord_name (gvk : GVK) (uid : String) (now : Nat) (statusPath : Bool)
    (existing : Record) (obj : Obj) :
    (updatedRecord gvk uid now statusPath existing obj).name = obj.name := by
  unfold updatedRecord
  by_cases h1 : statusPath = true
  · simp only [h1, if_true]; rfl
  · simp only [Bool.not_eq_true] at h1
    simp only [h1, Bool.false_eq_true, if_false]
    split <;> split <;> split <;> rfl

theorem updatedRecord_nspace (gvk : GVK) (uid : String) (now : Nat) (statusPath : Bool)
    (existing : Record) (obj : Obj) :
    (updatedRecord gvk uid now statusPath existing obj).nspace = obj.nspace := by
  unfold updatedRecord
  by_cases h1 : statusPath = true
  · simp only [h1, if_true]; rfl
  · simp only [Bool.not_eq_true] at h1
    simp only [h1, Bool.false_eq_true, if_false]
    split <;> split <;> split <;> rfl

theorem updatedRecord_id (gvk : GVK) (uid : String) (now : Nat) (statusPath : Bool)
    (existing : Record) (obj : Obj) :
    (updatedRecord gvk uid now statusPath existing obj).id = 0 := by
  unfold updatedRecord
  by_cases h1 : statusPath = true
  · simp only [h1, if_true]; rfl
  · simp only [Bool.not_eq_true] at h1
    simp only [h1, Bool.false_eq_true, if_false]
    split <;> split <;> split <;> rfl

theorem updatedRecord_previous (gvk : GVK) (uid : String) (now : Nat) (statusPath : Bool)
    (existing : Record) (obj : Obj) :
    (updatedRecord gvk uid now statusPath existing obj).previous = some existing.id := by
  unfold updatedRecord
  by_cases h1 : statusPath = true
  · simp [h1]
  · simp only [Bool.not_eq_true] at h1
    simp only [h1, Bool.false_eq_true, if_false]
    split <;> split <;> split <;> rfl

/-- Blob and generation behaviour of the spec path of `Strategy.update`:
the new metadata/data blobs are the object's; byte-equal blobs keep the
generation (and store the object's own serialized status); differing blobs
bump the generation and carry the existing status blob forward. -/
theorem updatedRecord_specPath (gvk : GVK) (uid : String) (now : Nat)
    (e : Record) (obj : Obj) :
    ((updatedRecord gvk uid now false e obj).metadata = obj.metadataBytes ∧
     (updatedRecord gvk uid now false e obj).data = obj.specBytes) ∧
    (obj.metadataBytes = e.metadata ∧ obj.specBytes = e.data →
      (updatedRecord gvk uid now false e obj).generation = e.generation ∧
      (updatedRecord gvk uid now false e obj).status = some obj.statusBytes) ∧
    (¬(obj.metadataBytes = e.metadata ∧ obj.specBytes = e.data) →
      (updatedRecord gvk uid now false e obj).generation = e.generation + 1 ∧
      (updatedRecord gvk uid now false e obj).status = e.status) := by
  refine ⟨⟨?_, ?_⟩, ?_, ?_⟩
  · unfold updatedRecord
    simp only [Bool.false_eq_true, if_false]
    split <;> split <;> split <;> rfl
  · unfold updatedRecord
    simp only [Bool.false_eq_true, if_false]
    split <;> split <;> split <;> rfl
  · intro heq
    unfold updatedRecord
    simp only [Bool.false_eq_true, if_false]
    split <;> split <;> split
    all_goals try exact ⟨rfl, rfl⟩
    all_goals rename_i hc; exact absurd ⟨heq.1, heq.2⟩ hc
  · intro heq
    unfold updatedRecord
    simp only [Bool.false_eq_true, if_false]
    split <;> split <;> split
    all_goals try exact ⟨rfl, rfl⟩
    all_goals rename_i hc; exact absurd ⟨hc.1, hc.2⟩ heq

/-- The status path keeps the existing generation, data, and metadata, and
stores the object's serialized status. -/
theorem updatedRecord_statusPath (gvk : GVK) (uid : String) (now : Nat)
    (e : Record) (obj : Obj) :
    (updatedRecord gvk uid now true e obj).generation = e.generation ∧
    (updatedRecord gvk uid now true e obj).data = e.data ∧
    (updatedRecord gvk uid now true e obj).metadata = e.metadata ∧
    (updatedRecord gvk uid now true e obj).status = some obj.statusBytes :=
  ⟨rfl, rfl, rfl, rfl⟩

/-! ## Characterization of `Strategy.create` and `Strategy.update` -/

/-- Full case analysis of `Strategy.create` against a well-formed table:
a live latest record yields already-exists; a fresh key appends one row
with no predecessor; a removed predecessor is chained and its `latest`
flag is cleared.  The invariant is preserved in the success cases. -/
theorem create_spec (gvk : GVK) (pidReq : Bool) (pid uid : String) (now : Nat)
    {t : List Record} (inv : TableInv t) {obj : Obj} (hname : obj.name ≠ "")
    (hpid : ¬(pidReq ∧ pid = "")) :
    (∀ e, (rowsOf t obj.nspace obj.name).getLast? = some e → e.removed = none →
        Strategy.create gvk pidReq pid uid now t obj
          = .error (.alreadyExists gvk.kind obj.name)) ∧
    ((rowsOf t obj.nspace obj.name).getLast? = none →
        Strategy.create gvk pidReq pid uid now t obj
          = .ok (t ++ [storedRecord t (createdRecord gvk uid now pid obj none)],
                 storedRecord t (createdRecord gvk uid now pid obj none)) ∧
        TableInv (t ++ [storedRecord t (createdRecord gvk uid now pid obj none)])) ∧
    (∀ e, (rowsOf t obj.nspace obj.name).getLast? = some e → e.removed ≠ none →
        Strategy.create gvk pidReq pid uid now t obj
          = .ok (flipLatest t e.id
                   ++ [storedRecord t (createdRecord gvk uid now pid obj (some e.id))],
                 storedRecord t (createdRecord gvk uid now pid obj (some e.id))) ∧
        TableInv (flipLatest t e.id
                   ++ [storedRecord t (createdRecord gvk uid now pid obj (some e.id))])) := by
  have hsorted : IdSorted t := inv.1
  unfold Strategy.create
  rw [if_neg hpid, getExisting_eq hsorted obj.nspace obj.name pid hname]
  refine ⟨?_, ?_, ?_⟩
  · intro e he hrem
    simp [he, hrem]
  · intro he
    simp only [he]
    have hprev : (rowsOf t (createdRecord gvk uid now pid obj none).nspace
          (createdRecord gvk uid now pid obj none).name = [] ∧
          (createdRecord gvk uid now pid obj none).previous = none)
        ∨ (∃ m, (rowsOf t (createdRecord gvk uid now pid obj none).nspace
          (createdRecord gvk uid now pid obj none).name).getLast? = some m ∧
          (createdRecord gvk uid now pid obj none).previous = some m.id) := by
      left
      constructor
      · have : (createdRecord gvk uid now pid obj none).nspace = obj.nspace := rfl
        rw [this, show (createdRecord gvk uid now pid obj none).name = obj.name from rfl]
        exact List.getLast?_eq_none_iff.mp he
      · rfl
    obtain ⟨hins, hinv⟩ := insert_preserves inv
      (show (createdRecord gvk uid now pid obj none).name ≠ "" from hname)
      (show (createdRecord gvk uid now pid obj none).id = 0 from rfl) hprev
    rw [hins]
    exact ⟨rfl, hinv⟩
  · intro e he hrem
    simp only [he]
    have hprev : (rowsOf t (createdRecord gvk uid now pid obj (some e.id)).nspace
          (createdRecord gvk uid now pid obj (some e.id)).name = [] ∧
          (createdRecord gvk uid now pid obj (some e.id)).previous = none)
        ∨ (∃ m, (rowsOf t (createdRecord gvk uid now pid obj (some e.id)).nspace
          (createdRecord gvk uid now pid obj (some e.id)).name).getLast? = some m ∧
          (createdRecord gvk uid now pid obj (some e.id)).previous = some m.id) := by
      right
      exact ⟨e, he, rfl⟩
    obtain ⟨hins, hinv⟩ := insert_preserves inv
      (show (createdRecord gvk uid now pid obj (some e.id)).name ≠ "" from hname)
      (show (createdRecord gvk uid now pid obj (some e.id)).id = 0 from rfl) hprev
    rw [if_neg hrem, hins]
    exact ⟨rfl, hinv⟩

/-- Full case analysis of `Strategy.update` (spec, status, and delete paths
alike) against a well-formed table: no history row for the key yields
not-found; a resource-version mismatch against the latest row yields the
optimistic-lock conflict; a matching version (and UID) appends exactly one
row built by `updatedRecord` and clears the predecessor's `latest` flag.
The invariant is preserved in the success case. -/
theorem update_spec (gvk : GVK) (pidReq : Bool) (pid uid : String) (now : Nat)
    (statusPath : Bool) {t : List Record} (inv : TableInv t) {obj : Obj}
    (hname : obj.name ≠ "") (hpid : ¬(pidReq ∧ pid = "")) :
    ((rowsOf t obj.nspace obj.name).getLast? = none →
        Strategy.update gvk pidReq pid uid now statusPath t obj
          = .error (.notFound gvk.kind obj.name)) ∧
    (∀ e, (rowsOf t obj.nspace obj.name).getLast? = some e →
        obj.resourceVersion ≠ toString e.id →
        Strategy.update gvk pidReq pid uid now statusPath t obj
          = .error (.conflict gvk.kind obj.name OptimisticLockErrorMsg)) ∧
    (∀ e, (rowsOf t obj.nspace obj.name).getLast? = some e →
        obj.resourceVersion = toString e.id → obj.uid = e.uid →
        Strategy.update gvk pidReq pid uid now statusPath t obj
          = .ok (flipLatest t e.id
                   ++ [storedRecord t (updatedRecord gvk uid now statusPath e obj)],
                 storedRecord t (updatedRecord gvk uid now statusPath e obj)) ∧
        TableInv (flipLatest t e.id
                   ++ [storedRecord t (updatedRecord gvk uid now statusPath e obj)])) := by
  have hsorted : IdSorted t := inv.1
  unfold Strategy.update
  rw [if_neg hpid, getExisting_eq hsorted obj.nspace obj.name pid hname]
  refine ⟨?_, ?_, ?_⟩
  · intro he
    simp only [he]
  · intro e he hrv
    simp only [he]
    rw [if_pos hrv]
  · intro e he hrv huid
    simp only [he]
    rw [if_neg (show ¬(obj.resourceVersion ≠ toString e.id) from fun hc => hc hrv),
        if_neg (show ¬(obj.uid ≠ e.uid) from fun hc => hc huid)]
    have hprev : (rowsOf t (updatedRecord gvk uid now statusPath e obj).nspace
          (updatedRecord gvk uid now statusPath e obj).name = [] ∧
          (updatedRecord gvk uid now statusPath e obj).previous = none)
        ∨ (∃ m, (rowsOf t (updatedRecord gvk uid now statusPath e obj).nspace
          (updatedRecord gvk uid now statusPath e obj).name).getLast? = some m ∧
          (updatedRecord gvk uid now statusPath e obj).previous = some m.id) := by
      right
      rw [updatedRecord_nspace, updatedRecord_name, updatedRecord_previous]
      exact ⟨e, he, rfl⟩
    obtain ⟨hins, hinv⟩ := insert_preserves inv
      (show (updatedRecord gvk uid now statusPath e obj).name ≠ "" by
        rw [updatedRecord_name]; exact hname)
      (updatedRecord_id gvk uid now statusPath e obj) hprev
    rw [hins]
    refine ⟨?_, ?_⟩
    · have : (match (updatedRecord gvk uid now statusPath e obj).previous with
          | some p => flipLatest t p
          | none => t) = flipLatest t e.id := by
        rw [updatedRecord_previous]
      rw [this]
    · have : (match (updatedRecord gvk uid now statusPath e obj).previous with
          | some p => flipLatest t p
          | none => t) = flipLatest t e.id := by
        rw [updatedRecord_previous]
      rw [this] at hinv
      exact hinv

/-! ## Reachable states -/

/-- Tables reachable from an empty table through the strategy write
operations (objects carry a non-empty name, as the Kubernetes API layer
guarantees before the store strategy is invoked). -/
inductive Reachable : List Record → Prop
  | empty : Reachable []
  | createStep (gvk : GVK) (pidReq : Bool) (pid uid : String) (now : Nat)
      (t : List Record) (obj : Obj) : Reachable t → obj.name ≠ "" →
      Reachable (Strategy.runCreate gvk pidReq pid uid now t obj).1
  | updateStep (gvk : GVK) (pidReq : Bool) (pid uid : String) (now : Nat)
      (statusPath : Bool) (t : List Record) (obj : Obj) : Reachable t → obj.name ≠ "" →
      Reachable (Strategy.runUpdate gvk pidReq pid uid now statusPath t obj).1

theorem runCreate_inv (gvk : GVK) (pidReq : Bool) (pid uid : String) (now : Nat)
    {t : List Record} {obj : Obj} (inv : TableInv t) (hname : obj.name ≠ "") :
    TableInv (Strategy.runCreate gvk pidReq pid uid now t obj).1 := by
  unfold Strategy.runCreate
  by_cases hpid : pidReq ∧ pid = ""
  · have hstep : Strategy.create gvk pidReq pid uid now t obj = .error .partitionRequired := by
      unfold Strategy.create
      rw [if_pos hpid]
    rw [hstep]
    exact inv
  · obtain ⟨hae, hfresh, hre⟩ := create_spec gvk pidReq pid uid now inv hname hpid
    cases hlast : (rowsOf t obj.nspace obj.name).getLast? with
    | none =>
      obtain ⟨heq, hinv⟩ := hfresh hlast
      rw [heq]
      exact hinv
    | some e =>
      by_cases hrem : e.removed = none
      · rw [hae e hlast hrem]
        exact inv
      · obtain ⟨heq, hinv⟩ := hre e hlast hrem
        rw [heq]
        exact hinv

theorem runUpdate_inv (gvk : GVK) (pidReq : Bool) (pid uid : String) (now : Nat)
    (statusPath : Bool) {t : List Record} {obj : Obj} (inv : TableInv t)
    (hname : obj.name ≠ "") :
    TableInv (Strategy.runUpdate gvk pidReq pid uid now statusPath t obj).1 := by
  unfold Strategy.runUpdate
  by_cases hpid : pidReq ∧ pid = ""
  · have hstep : Strategy.update gvk pidReq pid uid now statusPath t obj
        = .error .partitionRequired := by
      unfold Strategy.update
      rw [if_pos hpid]
    rw [hstep]
    exact inv
  · obtain ⟨hnf, hconf, hok⟩ := update_spec gvk pidReq pid uid now statusPath inv hname hpid
    cases hlast : (rowsOf t obj.nspace obj.name).getLast? with
    | none =>
      rw [hnf hlast]
      exact inv
    | some e =>
      by_cases hrv : obj.resourceVersion = toString e.id
      · by_cases huid : obj.uid = e.uid
        · obtain ⟨heq, hinv⟩ := hok e hlast hrv huid
          rw [heq]
          exact hinv
        · have hstep : Strategy.update gvk pidReq pid uid now statusPath t obj
              = .error (.conflict gvk.kind obj.name "uid precondition failed") := by
            unfold Strategy.update
            rw [if_neg hpid, getExisting_eq inv.1 obj.nspace obj.name pid hname]
            simp only [hlast]
            rw [if_neg (show ¬(obj.resourceVersion ≠ toString e.id) from fun hc => hc hrv),
                if_pos huid]
          rw [hstep]
          exact inv
      · rw [hconf e hlast hrv]
        exact inv

theorem reachable_inv {t : List Record} (h : Reachable t) : TableInv t := by
  induction h with
  | empty =>
    exact ⟨List.Pairwise.nil, fun r hr => absurd hr (List.not_mem_nil r),
      fun r hr => absurd hr (List.not_mem_nil r), rfl⟩
  | createStep gvk pidReq pid uid now t obj _ hname ih =>
    exact runCreate_inv gvk pidReq pid uid now ih hname
  | updateStep gvk pidReq pid uid now statusPath t obj _ hname ih =>
    exact runUpdate_inv gvk pidReq pid uid now statusPath ih hname

/-! ## Continuation-token roundtrip -/

theorem b64Index_b64Char {n : Nat} (h : n < 64) : b64Index (b64Char n) = some n := by
  have h64 : ∀ m ∈ List.range 64, b64Index (b64Char m) = some m := by decide
  exact h64 n (List.mem_range.mpr h)

theorem b64Char_ne_pad {n : Nat} (h : n < 64) : b64Char n ≠ '=' := by
  have h64 : ∀ m ∈ List.range 64, b64Char m ≠ '=' := by decide
  exact h64 n (List.mem_range.mpr h)

theorem b64_roundtrip : ∀ (bs : List Nat), (∀ b ∈ bs, b < 256) →
    b64DecodeList (b64EncodeChunks bs) = some bs := by
  intro bs
  induction bs using b64EncodeChunks.induct with
  | case1 =>
    intro _
    rfl
  | case2 a =>
    intro hb
    have ha : a < 256 := hb a (by simp)
    have h1 : a / 4 < 64 := by omega
    have h2 : a % 4 * 16 < 64 := by omega
    unfold b64EncodeChunks b64DecodeList
    rw [b64Index_b64Char h1, b64Index_b64Char h2]
    simp only [Option.bind_eq_bind, Option.some_bind]
    rw [if_pos (by simp)]
    congr 1
    congr 1
    omega
  | case3 a b =>
    intro hb
    have ha : a < 256 := hb a (by simp)
    have hbb : b < 256 := hb b (by simp)
    have h1 : a / 4 < 64 := by omega
    have h2 : a % 4 * 16 + b / 16 < 64 := by omega
    have h3 : b % 16 * 4 < 64 := by omega
    unfold b64EncodeChunks b64DecodeList
    rw [b64Index_b64Char h1, b64Index_b64Char h2]
    simp only [Option.bind_eq_bind, Option.some_bind]
    rw [if_neg (by
      intro hc
      exact b64Char_ne_pad h3 hc.1)]
    rw [b64Index_b64Char h3]
    simp only [Option.some_bind]
    rw [if_pos (by simp)]
    congr 1
    congr 1
    · omega
    · congr 1
      omega
  | case4 a b c rest ih =>
    intro hin
    have ha : a < 256 := hin a (by simp)
    have hbb : b < 256 := hin b (by simp)
    have hc : c < 256 := hin c (by simp)
    have hrest : ∀ x ∈ rest, x < 256 := fun x hx => hin x (by simp [hx])
    have h1 : a / 4 < 64 := by omega
    have h2 : a % 4 * 16 + b / 16 < 64 := by omega
    have h3 : b % 16 * 4 + c / 64 < 64 := by omega
    have h4 : c % 64 < 64 := by omega
    unfold b64EncodeChunks b64DecodeList
    rw [b64Index_b64Char h1, b64Index_b64Char h2]
    simp only [Option.bind_eq_bind, Option.some_bind]
    rw [if_neg (by
      intro hcon
      exact b64Char_ne_pad h3 hcon.1)]
    rw [b64Index_b64Char h3]
    simp only [Option.some_bind]
    rw [if_neg (by
      intro hcon
      exact b64Char_ne_pad h4 hcon.1)]
    rw [b64Index_b64Char h4]
    simp only [Option.some_bind]
    rw [ih hrest]
    simp only [Option.some_bind]
    congr 1
    congr 1
    · omega
    · congr 1
      · omega
      · congr 1
        omega

/-- Little-endian value of a decimal digit list. -/
def valueLE : List Nat → Nat
  | [] => 0
  | d :: ds => d + 10 * valueLE ds

theorem digitsRev_value : ∀ (fuel n : Nat), n ≤ fuel →
    valueLE (digitsRevBase10 fuel n) = n := by
  intro fuel
  induction fuel with
  | zero =>
    intro n hn
    interval_cases n
    rfl
  | succ f ih =>
    intro n hn
    unfold digitsRevBase10
    by_cases h0 : n = 0
    · simp [h0, valueLE]
    · rw [if_neg h0]
      unfold valueLE
      rw [ih (n / 10) (by omega)]
      omega

theorem digitsRev_lt_ten : ∀ (fuel n : Nat), ∀ d ∈ digitsRevBase10 fuel n, d < 10 := by
  intro fuel
  induction fuel with
  | zero => intro n d hd; cases hd
  | succ f ih =>
    intro n d hd
    unfold digitsRevBase10 at hd
    by_cases h0 : n = 0
    · rw [if_pos h0] at hd; cases hd
    · rw [if_neg h0] at hd
      rcases List.mem_cons.mp hd with rfl | h
      · omega
      · exact ih (n / 10) d h

theorem digitsRev_ne_nil {n : Nat} (h : 1 ≤ n) : digitsRevBase10 n n ≠ [] := by
  cases n with
  | zero => omega
  | succ k =>
    show (if k + 1 = 0 then []
      else (k + 1) % 10 :: digitsRevBase10 k ((k + 1) / 10)) ≠ []
    rw [if_neg (by omega)]
    simp

/-- The big-endian accumulator fold of `parseDecimalBytes` over the
ASCII-mapped, reversed digit list recovers the little-endian value. -/
theorem parse_loop : ∀ (l : List Nat) (acc : Nat),
    ((l.map (fun d => 48 + d)).reverse.foldl (fun a b => a * 10 + (b - 48)) acc)
      = acc * 10 ^ l.length + valueLE l := by
  intro l
  induction l with
  | nil => intro acc; simp [valueLE]
  | cons d ds ih =>
    intro acc
    simp only [List.map_cons, List.reverse_cons, List.foldl_append, List.foldl_cons,
      List.foldl_nil, ih]
    have h48 : 48 + d - 48 = d := by omega
    rw [h48]
    have hval : valueLE (d :: ds) = d + 10 * valueLE ds := rfl
    rw [hval, List.length_cons, pow_succ]
    ring

theorem parseDecimalBytes_decimalBytes {n : Nat} (h : 1 ≤ n) :
    parseDecimalBytes (decimalBytes n) = some n := by
  unfold parseDecimalBytes decimalBytes
  have hne : ((digitsRevBase10 n n).map (fun d => 48 + d)).reverse ≠ [] := by
    simp
    exact digitsRev_ne_nil h
  have hall : (((digitsRevBase10 n n).map (fun d => 48 + d)).reverse.all
      (fun b => Nat.ble 48 b && Nat.ble b 57)) = true := by
    rw [List.all_eq_true]
    intro b hb
    rw [List.mem_reverse, List.mem_map] at hb
    obtain ⟨d, hd, rfl⟩ := hb
    have := digitsRev_lt_ten n n d hd
    simp only [Bool.and_eq_true, Nat.ble_eq]
    omega
  rw [if_pos ⟨hne, hall⟩]
  congr 1
  rw [parse_loop, digitsRev_value n n (le_refl n)]
  simp

theorem contMarshalBytes_lt256 (id : Nat) : ∀ b ∈ contMarshalBytes id, b < 256 := by
  intro b hb
  unfold contMarshalBytes at hb
  by_cases h0 : id = 0
  · rw [if_pos h0] at hb
    simp at hb
    rcases hb with rfl | rfl <;> omega
  · rw [if_neg h0] at hb
    rcases List.mem_append.mp hb with h | h
    · rcases List.mem_append.mp h with h2 | h2
      · simp at h2
        rcases h2 with rfl | rfl | rfl | rfl | rfl | rfl <;> omega
      · unfold decimalBytes at h2
        rw [List.mem_reverse, List.mem_map] at h2
        obtain ⟨d, hd, rfl⟩ := h2
        have := digitsRev_lt_ten id id d hd
        omega
    · simp at h
      omega

theorem contUnmarshal_contMarshalBytes (id : Nat) :
    contUnmarshal (contMarshalBytes id) = some id := by
  by_cases h0 : id = 0
  · subst h0
    rfl
  · have hform : contMarshalBytes id
        = [123, 34, 105, 100, 34, 58] ++ decimalBytes id ++ [125] := by
      unfold contMarshalBytes
      rw [if_neg h0]
    unfold contUnmarshal
    rw [hform]
    have hlen : ([123, 34, 105, 100, 34, 58] ++ decimalBytes id ++ [125]
        : List Nat).length = 7 + (decimalBytes id).length := by
      simp
      omega
    rw [if_neg (by
      intro hc
      have hcl := congrArg List.length hc
      rw [hlen] at hcl
      simp at hcl
      omega)]
    have htake : ([123, 34, 105, 100, 34, 58] ++ decimalBytes id ++ [125]
        : List Nat).take 6 = [123, 34, 105, 100, 34, 58] := by
      rw [List.append_assoc]
      have h6 : ([123, 34, 105, 100, 34, 58] : List Nat).length = 6 := rfl
      rw [← h6, List.take_left]
    have hlast : ([123, 34, 105, 100, 34, 58] ++ decimalBytes id ++ [125]
        : List Nat).getLast? = some 125 := List.getLast?_concat _
    rw [if_pos ⟨htake, hlast⟩]
    have hdrop : ([123, 34, 105, 100, 34, 58] ++ decimalBytes id ++ [125]
        : List Nat).drop 6 = decimalBytes id ++ [125] := by
      rw [List.append_assoc]
      have h6 : ([123, 34, 105, 100, 34, 58] : List Nat).length = 6 := rfl
      rw [← h6, List.drop_left]
    rw [hdrop, List.dropLast_concat]
    exact parseDecimalBytes_decimalBytes (by omega)

/-- The decode performed by the next `Strategy.list` call recovers exactly
the id the previous call encoded into its continuation token. -/
theorem decodeContinue_encodeContinue (id : Nat) :
    decodeContinue (encodeContinue id) = some id := by
  unfold decodeContinue encodeContinue
  have htl : (String.mk (b64EncodeChunks (contMarshalBytes id))).toList
      = b64EncodeChunks (contMarshalBytes id) := rfl
  rw [htl, b64_roundtrip (contMarshalBytes id) (contMarshalBytes_lt256 id)]
  simp only [Option.bind_eq_bind, Option.some_bind]
  exact contUnmarshal_contMarshalBytes id

theorem b64EncodeChunks_ne_nil {bs : List Nat} (h : bs ≠ []) : b64EncodeChunks bs ≠ [] := by
  cases bs with
  | nil => exact absurd rfl h
  | cons a l =>
    cases l with
    | nil => simp [b64EncodeChunks]
    | cons b l2 =>
      cases l2 with
      | nil => simp [b64EncodeChunks]
      | cons c l3 => simp [b64EncodeChunks]

/-- The continuation token emitted for a full page is never the empty
string. -/
theorem encodeContinue_ne_empty (id : Nat) : encodeContinue id ≠ "" := by
  unfold encodeContinue
  intro hc
  have hbs : contMarshalBytes id ≠ [] := by
    unfold contMarshalBytes
    by_cases h0 : id = 0 <;> simp [h0]
  apply b64EncodeChunks_ne_nil hbs
  have hdata : (String.mk (b64EncodeChunks (contMarshalBytes id))).data
      = ("" : String).data := by rw [hc]
  simpa using hdata

/-! ## Concrete fixtures used by the claim evaluations -/

/-- A table holding one live record under partition "B". -/
def c1Table : List Record :=
  [{ id := 1, kind := "Pod", name := "x", nspace := "ns", uid := "u1", generation := 1,
     create := true, latest := true, partitionID := "B" }]

/-- An update issued from partition "A" for the same (namespace, name). -/
def c1Obj : Obj := { name := "x", nspace := "ns", resourceVersion := "1", uid := "u1" }

/-- One live record whose spec/metadata blobs the updating object repeats
verbatim while submitting a different status blob. -/
def c3Record : Record :=
  { id := 1, kind := "Pod", name := "p", nspace := "n", uid := "u1", generation := 1,
    create := true, latest := true, metadata := { labels := [], rest := "m" }, data := [7],
    status := some [1] }

def c3Table : List Record := [c3Record]

def c3Obj : Obj :=
  { name := "p", nspace := "n", resourceVersion := "1", uid := "u1",
    metadataBytes := { labels := [], rest := "m" }, specBytes := [7], statusBytes := [2] }

/-- A table whose single row sits above a compaction horizon of 5. -/
def c4Table : List Record := [{ id := 6, name := "q", nspace := "n", latest := true }]

/-- Two live records distinguished only by the value of the label `test`. -/
def c8r1 : Record :=
  { id := 1, name := "p1", nspace := "n", latest := true,
    metadata := { labels := [("test", "a")] } }

def c8r2 : Record :=
  { id := 2, name := "p2", nspace := "n", latest := true,
    metadata := { labels := [("test", "b")] } }

/-- A list query carrying the label selector `test != a`. -/
def c8Criteria : Criteria := { labelSelector := some ⟨[⟨"test", .neq, ["a"]⟩], true⟩ }

/-- A non-empty table an engine restarts on. -/
def c9Table : List Record := [{ id := 1, name := "a", nspace := "n", latest := true }]

/-! ## Claims -/

/-- Claim C1.  The claim states that Update/UpdateStatus/Delete fail
not-found when no record exists for the `(partition, namespace, name)` key.
The code, however, never filters its lookups by `Criteria.PartitionID`
(`GormDB.possibleIDs`/`Get` ignore the field entirely), so an update issued
under partition "A" finds and successfully extends partition "B"'s record
instead of failing not-found: at this input every stored row belongs to
partition "B", yet the update succeeds and the stored successor still
carries partition "B". -/
theorem claim_C1_partition_ignored :
    (∀ r ∈ c1Table, r.partitionID ≠ "A") ∧
    (Strategy.update ⟨"g", "v", "Pod"⟩ true "A" "u2" 5 false c1Table c1Obj).isOk = true ∧
    ((Strategy.update ⟨"g", "v", "Pod"⟩ true "A" "u2" 5 false c1Table c1Obj).toOption.map
      (fun p => p.2.partitionID)) = some "B" := by
  refine ⟨?_, by decide, by decide⟩
  decide

/-- Claim C8.  The claim states that a `NotEquals` label requirement on key
`k`, value `v` excludes exactly the records whose label `k` equals `v`.
The code's `selection.NotEquals` branch issues the SQL clause `"? = ?"` —
identical to the Equals branch — so the result set contains exactly the
records whose label equals `v`: here the selector `test != a` returns the
record labelled `test=a` and drops the record labelled `test=b`. -/
theorem claim_C8_noteq_is_eq :
    extractLabel c8r1.metadata "test" = some "a" ∧
    extractLabel c8r2.metadata "test" = some "b" ∧
    GormDB.get ⟨[c8r1, c8r2], 0⟩ c8Criteria = .ok ([c8r1], 2) ∧
    labelReqMatch ⟨"test", .neq, ["a"]⟩ c8r1.metadata = true ∧
    labelReqMatch ⟨"test", .neq, ["a"]⟩ c8r2.metadata = false := by
  refine ⟨by decide, by decide, by rfl, by decide, by decide⟩

/-- Claim C9, counterexample.  The claim states that at engine start the
watch loop's last-seen id is rebuilt by rereading the table from id 0
through the normal read-events loop, republishing every existing row.  On
this one-row table the initial `readEvents` call (`init = true`) publishes
nothing at all — it jumps the last-seen id directly to `MAX(id)`. -/
theorem claim_C9_counterexample :
    GormDB.readEvents c9Table true 0 0
      = ⟨1, 0, [], none⟩ ∧ c9Table ≠ [] ∧ maxID c9Table = 1 ∧
    (GormDB.readEvents c9Table true 0 0).published ≠ c9Table := by
  refine ⟨by decide, by decide, by decide, by decide⟩

/-- Claim C9, amended.  At engine start the in-memory horizon is
initialized to the current `MAX(id)` (`GormDB.Start`), and the watch
loop's first `readEvents` call (`init = true`) likewise sets the last-seen
id directly to `MAX(id)`, reading rows only above it — so nothing is
republished and no rereading from id 0 happens. -/
theorem claim_C9_amended (t : List Record) (lastID compaction : Nat) :
    GormDB.startCompaction t = maxID t ∧
    GormDB.readEvents t true lastID compaction = ⟨maxID t, compaction, [], none⟩ := by
  refine ⟨rfl, ?_⟩
  unfold GormDB.readEvents
  simp only [if_true]
  have hsince : since t (maxID t) = [] := by
    unfold since
    rw [List.filter_eq_nil_iff]
    intro r hr
    simp only [decide_eq_true_eq, not_lt]
    have := le_maxID hr
    omega
  rw [hsince]
  rfl

/-- Claim C10.  The in-memory compaction horizon is monotonically
non-decreasing: the gc-loop advance replaces it only with a strictly
greater value, and every step of the watch loop's `readEvents` (including
its compaction-marker handling) can only raise it. -/
theorem claim_C10_horizon_monotone :
    (∀ compaction next, compaction ≤ gcAdvanceHorizon compaction next) ∧
    (∀ records lastID compaction published,
        compaction ≤ (readEventsLoop records lastID compaction published).compaction) ∧
    (∀ t init lastID compaction,
        compaction ≤ (GormDB.readEvents t init lastID compaction).compaction) := by
  have hloop : ∀ records lastID compaction published,
      compaction ≤ (readEventsLoop records lastID compaction published).compaction := by
    intro records
    induction records with
    | nil => intro lastID compaction published; exact le_refl _
    | cons r rest ih =>
      intro lastID compaction published
      unfold readEventsLoop
      by_cases hgap : r.id ≠ lastID + 1
      · rw [if_pos hgap]
      · rw [if_neg hgap]
        have hup : compaction ≤ (if r.name = "" ∧ r.nspace ≠ "" then
            match parseMarkerId r.nspace with
            | some k => if k > compaction then k else compaction
            | none => compaction
          else compaction) := by
          split
          · cases parseMarkerId r.nspace with
            | none => exact le_refl _
            | some k =>
              simp only []
              split <;> omega
          · exact le_refl _
        exact le_trans hup (ih _ _ _)
  refine ⟨?_, hloop, ?_⟩
  · intro compaction next
    unfold gcAdvanceHorizon
    split <;> omega
  · intro t init lastID compaction
    unfold GormDB.readEvents
    exact hloop _ _ _ _

theorem validateCriteria_cases (compaction before after : Nat) :
    ((before ≠ 0 ∧ before < compaction) →
      validateCriteria compaction before after = .error (.resourceExpired before compaction)) ∧
    (¬(before ≠ 0 ∧ before < compaction) → (after ≠ 0 ∧ after < compaction) →
      validateCriteria compaction before after = .error (.resourceExpired after compaction)) ∧
    (¬(before ≠ 0 ∧ before < compaction) → ¬(after ≠ 0 ∧ after < compaction) →
      validateCriteria compaction before after = .ok ()) := by
  unfold validateCriteria
  exact ⟨fun hb => by rw [if_pos hb],
    fun hnb ha => by rw [if_neg hnb, if_pos ha],
    fun hnb hna => by rw [if_neg hnb, if_neg hna]⟩

/-- Claim C4, counterexample.  The claim states that every Get/List query
with a non-zero bound strictly below the compaction horizon fails with
resource-version-expired.  A List call resuming from a continuation token,
however, sets the internal `ignoreCompactionCheck` flag
(`criteria.ignoreCompactionCheck = criteria.After != 0`), so here a List
resuming from id 1 — strictly below the horizon 5 — succeeds instead of
failing. -/
theorem claim_C4_counterexample :
    decodeContinue (encodeContinue 1) = some 1 ∧
    (1 : Nat) < 5 ∧ (1 : Nat) ≠ 0 ∧
    ((Strategy.list ⟨c4Table, 5⟩ none "" (fun _ => true)
      { limit := 0, continueTok := encodeContinue 1 }).map
        (fun r => r.isOk)) = some true ∧
    Strategy.list ⟨c4Table, 5⟩ none "" (fun _ => true)
      { limit := 0, continueTok := encodeContinue 1 }
      ≠ some (.error (.resourceExpired 1 5)) := by
  refine ⟨decodeContinue_encodeContinue 1, by decide, by decide, by decide, ?_⟩
  intro hc
  have hfalse : ((Strategy.list ⟨c4Table, 5⟩ none "" (fun _ => true)
      { limit := 0, continueTok := encodeContinue 1 }).map
        (fun r => r.isOk)) = some false := by
    rw [hc]
    rfl
  have hok : ((Strategy.list ⟨c4Table, 5⟩ none "" (fun _ => true)
      { limit := 0, continueTok := encodeContinue 1 }).map
        (fun r => r.isOk)) = some true := by decide
  rw [hok] at hfalse
  cases hfalse

/-- Claim C4, amended.  For every query whose criteria leave the internal
`ignoreCompactionCheck` flag unset, and for every Watch subscription: a
non-zero `before` or `after` bound strictly below the in-memory compaction
horizon fails with resource-version-expired (the `before` bound is checked
first), and when both bounds are at or above the horizon or zero the guard
passes and the rows are returned.  A List resuming from a continuation
token sets the flag and bypasses the guard (see the counterexample). -/
theorem claim_C4_amended (g : DBState) (c : Criteria)
    (hig : c.ignoreCompactionCheck = false) :
    ((c.before ≠ 0 ∧ c.before < g.compaction) →
        GormDB.get g c = .error (.resourceExpired c.before g.compaction)) ∧
    (¬(c.before ≠ 0 ∧ c.before < g.compaction) → (c.after ≠ 0 ∧ c.after < g.compaction) →
        GormDB.get g c = .error (.resourceExpired c.after g.compaction)) ∧
    (¬(c.before ≠ 0 ∧ c.before < g.compaction) → ¬(c.after ≠ 0 ∧ c.after < g.compaction) →
        GormDB.get g c = .ok (getRows g.table c, resolveBefore g.table c)) ∧
    (∀ after compaction,
      ((after ≠ 0 ∧ after < compaction) →
          GormDB.watchGuard compaction after = .error (.resourceExpired after compaction)) ∧
      (¬(after ≠ 0 ∧ after < compaction) → GormDB.watchGuard compaction after = .ok ())) := by
  have hstep : GormDB.get g c = (match validateCriteria g.compaction c.before c.after with
      | .error e => .error e
      | .ok _ => .ok (getRows g.table c, resolveBefore g.table c)) := by
    unfold GormDB.get
    rw [hig]
    rfl
  obtain ⟨h1, h2, h3⟩ := validateCriteria_cases g.compaction c.before c.after
  refine ⟨?_, ?_, ?_, ?_⟩
  · intro hb
    rw [hstep, h1 hb]
  · intro hnb ha
    rw [hstep, h2 hnb ha]
  · intro hnb hna
    rw [hstep, h3 hnb hna]
  · intro after compaction
    obtain ⟨g1, g2, g3⟩ := validateCriteria_cases compaction 0 after
    have hnb0 : ¬((0 : Nat) ≠ 0 ∧ 0 < compaction) := by
      intro hc
      exact hc.1 rfl
    constructor
    · intro ha
      unfold GormDB.watchGuard
      rw [g2 hnb0 ha]
    · intro hna
      unfold GormDB.watchGuard
      rw [g3 hnb0 hna]

/-- Claim C4, amended, witness: a query with `after = 2` below the horizon
5 fails with the expired error carrying both versions. -/
theorem claim_C4_amended_witness :
    GormDB.get ⟨[], 5⟩ { after := 2 } = .error (.resourceExpired 2 5) :=
  (claim_C4_amended ⟨[], 5⟩ { after := 2 } rfl).2.1 (by decide) (by decide)

/-- Claim C2.  `Strategy.create`: if the latest record for the object's
`(namespace, name)` key is live (`removed == null`), the call fails with
already-exists and the table is unchanged; otherwise exactly one new row is
appended whose uid is the freshly generated uuid, whose generation is 1,
whose `create` flag is set, whose status blob is NULL, and whose `previous`
is the removed predecessor's id when one exists and NULL otherwise. -/
theorem claim_C2_create (gvk : GVK) (pidReq : Bool) (pid uid : String) (now : Nat)
    {t : List Record} {obj : Obj} (hinv : TableInv t) (hname : obj.name ≠ "")
    (hpid : ¬(pidReq ∧ pid = "")) :
    (∀ e, (rowsOf t obj.nspace obj.name).getLast? = some e → e.removed = none →
        Strategy.runCreate gvk pidReq pid uid now t obj
          = (t, some (.alreadyExists gvk.kind obj.name))) ∧
    ((rowsOf t obj.nspace obj.name).getLast? = none →
      ∃ rec, Strategy.create gvk pidReq pid uid now t obj = .ok (t ++ [rec], rec) ∧
        rec.uid = uid ∧ rec.generation = 1 ∧ rec.create = true ∧ rec.status = none ∧
        rec.previous = none ∧ (t ++ [rec]).length = t.length + 1) ∧
    (∀ e, (rowsOf t obj.nspace obj.name).getLast? = some e → e.removed ≠ none →
      ∃ rec, Strategy.create gvk pidReq pid uid now t obj
          = .ok (flipLatest t e.id ++ [rec], rec) ∧
        rec.uid = uid ∧ rec.generation = 1 ∧ rec.create = true ∧ rec.status = none ∧
        rec.previous = some e.id ∧
        (flipLatest t e.id ++ [rec]).length = t.length + 1) := by
  obtain ⟨hae, hfresh, hre⟩ := create_spec gvk pidReq pid uid now hinv hname hpid
  refine ⟨?_, ?_, ?_⟩
  · intro e he hrem
    unfold Strategy.runCreate
    rw [hae e he hrem]
  · intro he
    obtain ⟨heq, _⟩ := hfresh he
    refine ⟨storedRecord t (createdRecord gvk uid now pid obj none),
      heq, rfl, rfl, rfl, rfl, rfl, by simp⟩
  · intro e he hrem
    obtain ⟨heq, _⟩ := hre e he hrem
    refine ⟨storedRecord t (createdRecord gvk uid now pid obj (some e.id)),
      heq, rfl, rfl, rfl, rfl, rfl, ?_⟩
    rw [flipLatest_eq_map]
    simp

/-- Claim C2, witness: creating into an empty table appends exactly one
record with the claimed fields. -/
theorem claim_C2_create_witness :
    (Strategy.create ⟨"g", "v", "Pod"⟩ false "" "u9" 7 []
        { name := "p", nspace := "n" }).toOption.map
      (fun p => (p.1.length, p.2.uid, p.2.generation, p.2.create, p.2.status, p.2.previous))
      = some (1, "u9", 1, true, none, none) := by
  obtain ⟨rec, heq, hu, hg, hcr, hst, hpr, hlen⟩ :=
    (claim_C2_create ⟨"g", "v", "Pod"⟩ false "" "u9" 7
      (show TableInv ([] : List Record) by decide)
      (show ({ name := "p", nspace := "n" } : Obj).name ≠ "" by decide) (by decide)).2.1 rfl
  rw [heq]
  show some ((1 : Nat), rec.uid, rec.generation, rec.create, rec.status, rec.previous)
      = some (1, "u9", 1, true, none, none)
  rw [hu, hg, hcr, hst, hpr]

/-- Claim C3, counterexample.  The claim's conclusion that the status blob
is never changed by a spec-path update fails: with metadata and data blobs
byte-equal to the existing record's, the spec path keeps the generation but
stores the object's own serialized status — here the stored status blob is
`[2]` although the existing record's was `[1]`. -/
theorem claim_C3_counterexample :
    ((Strategy.update ⟨"g", "v", "Pod"⟩ false "" "u2" 5 false c3Table c3Obj).toOption.map
      (fun p => (p.2.generation, p.2.status))) = some (1, some [2]) ∧
    ((rowsOf c3Table "n" "p").getLast?.map
      (fun e => (decide (e.metadata = c3Obj.metadataBytes),
                 decide (e.data = c3Obj.specBytes), e.status)))
      = some (true, true, some [1]) ∧
    ((Strategy.update ⟨"g", "v", "Pod"⟩ false "" "u2" 5 false c3Table c3Obj).toOption.map
      (fun p => p.2.status)) ≠ some c3Record.status := by
  exact ⟨by decide, by decide, by decide⟩

/-- Claim C3, amended.  For every succeeding spec-path update: the stored
metadata and data blobs are the object's serializations; when they are
byte-equal to the existing record's, the stored generation equals the
existing generation and the stored status blob is the object's own
serialized status (so the status blob can change on this branch); when they
differ, the stored generation is the existing generation plus one and the
stored status blob is carried over from the existing record. -/
theorem claim_C3_amended (gvk : GVK) (pidReq : Bool) (pid uid : String) (now : Nat)
    {t : List Record} {obj : Obj} (hinv : TableInv t) (hname : obj.name ≠ "")
    (hpid : ¬(pidReq ∧ pid = "")) :
    ∀ e, (rowsOf t obj.nspace obj.name).getLast? = some e →
      obj.resourceVersion = toString e.id → obj.uid = e.uid →
      ∃ t2 rec, Strategy.update gvk pidReq pid uid now false t obj = .ok (t2, rec) ∧
        rec.metadata = obj.metadataBytes ∧ rec.data = obj.specBytes ∧
        ((obj.metadataBytes = e.metadata ∧ obj.specBytes = e.data) →
            rec.generation = e.generation ∧ rec.status = some obj.statusBytes) ∧
        (¬(obj.metadataBytes = e.metadata ∧ obj.specBytes = e.data) →
            rec.generation = e.generation + 1 ∧ rec.status = e.status) := by
  intro e he hrv huid
  obtain ⟨_, _, hok⟩ := update_spec gvk pidReq pid uid now false hinv hname hpid
  obtain ⟨heq, _⟩ := hok e he hrv huid
  obtain ⟨⟨hmet, hdat⟩, hsame, hdiff⟩ := updatedRecord_specPath gvk uid now e obj
  refine ⟨_, storedRecord t (updatedRecord gvk uid now false e obj), heq,
    hmet, hdat, ?_, ?_⟩
  · intro h
    exact hsame h
  · intro h
    exact hdiff h

/-- Claim C3, amended, witness: the byte-equal branch at the concrete
fixture stores the object's status blob and keeps the generation. -/
theorem claim_C3_amended_witness :
    (Strategy.update ⟨"g", "v", "Pod"⟩ false "" "u2" 5 false c3Table c3Obj).toOption.map
      (fun p => (p.2.generation, p.2.status))
      = some (c3Record.generation, some c3Obj.statusBytes) := by
  obtain ⟨t2, rec, heq, hmet, hdat, hsame, _⟩ :=
    claim_C3_amended ⟨"g", "v", "Pod"⟩ false "" "u2" 5 (show TableInv c3Table by decide)
      (show c3Obj.name ≠ "" by decide) (by decide) c3Record
      (show (rowsOf c3Table c3Obj.nspace c3Obj.name).getLast? = some c3Record by decide)
      (by decide) (by decide)
  obtain ⟨hg, hs⟩ := hsame (by decide)
  rw [heq]
  show some (rec.generation, rec.status) = some (c3Record.generation, some c3Obj.statusBytes)
  rw [hg, hs]

/-- Claim C5.  The per-record event mapping of `Strategy.Watch`: a record
with an empty name is emitted as a Bookmark carrying its id as the
resource version exactly when the caller opted into bookmarks, and is not
emitted otherwise; a named record that passes the in-loop filters and
matches the predicate is emitted as Added when `create` is set, as Deleted
when `create` is unset and `removed` is non-null, and as Modified
otherwise. -/
theorem claim_C5_watch_events (c : WatchCriteria) (allowBm : Bool)
    (pred : Record → Option Bool) (r : Record) :
    (r.name = "" → processWatchRecord c allowBm pred r
        = if allowBm then some (.bookmark (toString r.id)) else none) ∧
    (r.name ≠ "" →
     ¬(c.partitionID ≠ "" ∧ r.partitionID ≠ c.partitionID) →
     ¬(c.name ≠ "" ∧ r.name ≠ c.name) →
     (∀ ns, c.nspace = some ns → r.nspace = ns) →
     pred r = some true →
     processWatchRecord c allowBm pred r
        = some (if r.create then .added r
                else if r.removed ≠ none then .deleted r
                else .modified r)) := by
  constructor
  · intro hempty
    unfold processWatchRecord
    rw [if_pos hempty]
  · intro hname hpart hnm hns hpred
    unfold processWatchRecord
    rw [if_neg hname, if_neg hpart, if_neg hnm]
    cases hcn : c.nspace with
    | none =>
      rw [dif_neg (by simp)]
      rw [hpred]
      by_cases hcr : r.create = true
      · simp [hcr]
      · rw [Bool.not_eq_true] at hcr
        by_cases hrem : r.removed = none
        · simp [hcr, hrem]
        · simp [hcr, hrem]
    | some ns =>
      rw [dif_pos (by simp)]
      rw [if_neg (by
        intro hcon
        exact hcon (hns ns hcn))]
      rw [hpred]
      by_cases hcr : r.create = true
      · simp [hcr]
      · rw [Bool.not_eq_true] at hcr
        by_cases hrem : r.removed = none
        · simp [hcr, hrem]
        · simp [hcr, hrem]

/-- The record used by the C5 witness. -/
def c5Record : Record := { id := 4, name := "p", nspace := "n", create := true }

/-- Claim C5, witness: a matching created record under an unfiltered watch
is emitted as Added, and the same record with an empty name is emitted as
a Bookmark carrying "4" when bookmarks are allowed. -/
theorem claim_C5_watch_events_witness :
    processWatchRecord {} false (fun _ => some true) c5Record = some (.added c5Record) ∧
    processWatchRecord {} true (fun _ => some true) { c5Record with name := "" }
      = some (.bookmark "4") := by
  constructor
  · have h := (claim_C5_watch_events {} false (fun _ => some true) c5Record).2
      (by decide) (by decide) (by decide)
      (fun ns h => Option.noConfusion h) rfl
    rw [h]
    rfl
  · have h := (claim_C5_watch_events {} true (fun _ => some true)
      { c5Record with name := "" }).1 rfl
    rw [h]
    rfl

/-! ## Claim C6 -/

def c6Gvk : GVK := ⟨"g", "v", "Pod"⟩

def c6Obj : Obj := { name := "p", nspace := "n" }

/-- The table after creating `n/p`. -/
def c6T1 : List Record := (Strategy.runCreate c6Gvk false "" "u1" 1 [] c6Obj).1

/-- A delete: the object resubmitted with a deletion timestamp and no
finalizers at the current resource version. -/
def c6ObjDel : Obj :=
  { name := "p", nspace := "n", resourceVersion := "1", uid := "u1",
    deletionTimestamp := some 2 }

/-- The table after the delete: the key is fully removed. -/
def c6T2 : List Record := (Strategy.runUpdate c6Gvk false "" "u2" 3 false c6T1 c6ObjDel).1

/-- Claim C6, counterexample.  The claim states that after full removal
(newest record has `removed != null`) zero rows of the key have
`latest = true`.  In the reachable state created by create-then-delete the
newest record of `n/p` is removed, yet exactly one row — the tombstone —
still has `latest = true`, because `GormDB.Insert` sets `latest` on every
named row it stores. -/
theorem claim_C6_counterexample :
    Reachable c6T2 ∧
    ((rowsOf c6T2 "n" "p").getLast?.map (fun r => r.removed)) = some (some 3) ∧
    latestCount c6T2 "n" "p" = 1 ∧ latestCount c6T2 "n" "p" ≠ 0 := by
  refine ⟨?_, by decide, by decide, by decide⟩
  exact Reachable.updateStep c6Gvk false "" "u2" 3 false c6T1 c6ObjDel
    (Reachable.createStep c6Gvk false "" "u1" 1 [] c6Obj Reachable.empty (by decide))
    (by decide)

/-- Claim C6, amended.  For every reachable store state and every logical
`(namespace, name)` key: while the key has any history rows — live or
fully removed — exactly one of its rows has `latest = true` (after full
removal that row is the tombstone); a key with no rows has none. -/
theorem claim_C6_amended {t : List Record} (h : Reachable t) (ns name : String)
    (hname : name ≠ "") :
    (rowsOf t ns name = [] → latestCount t ns name = 0) ∧
    (rowsOf t ns name ≠ [] → latestCount t ns name = 1) := by
  have hc := latestCount_of_inv (reachable_inv h) ns name hname
  constructor
  · intro he
    rw [hc, if_pos he]
  · intro he
    rw [hc, if_neg he]

/-- Claim C6, amended, witness: in the create-then-delete state the removed
key still has exactly one `latest` row. -/
theorem claim_C6_amended_witness : latestCount c6T2 "n" "p" = 1 :=
  (claim_C6_amended
    (Reachable.updateStep c6Gvk false "" "u2" 3 false c6T1 c6ObjDel
      (Reachable.createStep c6Gvk false "" "u1" 1 [] c6Obj Reachable.empty (by decide))
      (by decide))
    "n" "p" (by decide)).2 (by decide)

/-- Fixture rows for the C7 counterexample and witness. -/
def c7r1 : Record := { id := 1, name := "a", nspace := "n", latest := true }

def c7r2 : Record := { id := 2, name := "b", nspace := "n", latest := true }

def c7g : DBState := ⟨[c7r1, c7r2], 0⟩

/-- Claim C7, counterexample.  The claim states that whenever exactly N+1
rows come back from the database, the last object is dropped from the
returned page and a non-empty continuation token is returned.  When the
in-memory `Matches` re-check rejects every fetched row — here modelled by
the constant-false predicate, as an unpushed `metadata.*` field selector
produces — `objs` is empty and the slice `objs[0 : len(objs)-1]` panics, so
the call returns nothing at all: no page and no continuation token,
although exactly N+1 = 2 rows came back. -/
theorem claim_C7_counterexample :
    GormDB.get c7g (listCriteria none "" (1 + 1) none 0) = .ok ([c7r1, c7r2], 2) ∧
    ([c7r1, c7r2] : List Record).length = 1 + 1 ∧
    Strategy.list c7g none "" (fun _ => false) { limit := 1 } = none := by
  refine ⟨by rfl, by decide, by rfl⟩

/-- Claim C7, amended.  `Strategy.list` with a non-zero limit N sends limit
N+1 to the database.  When exactly N+1 rows come back and at least one of
them survives the predicate re-check, the last object is dropped from the
returned page and a non-empty continuation token is emitted encoding
(base64 of the JSON `cont` payload) the id of the second-to-last fetched
row, which the next List call decodes into its exclusive lower id bound
(`id > after` in the grouped subquery).  When exactly N+1 rows come back
but the predicate re-check rejects every fetched object, the slice
`objs[0 : len(objs)-1]` panics and the call returns nothing at all.  When
fewer rows come back, the continuation returned is empty. -/
theorem claim_C7_pagination (g : DBState) (ns : Option String) (pid : String)
    (pred : Record → Bool) (sel : Option LabelSelector) (N : Nat) (hN : N ≠ 0)
    {records : List Record} {rv : Nat}
    (hget : GormDB.get g (listCriteria ns pid (N + 1) sel 0) = .ok (records, rv)) :
    (listCriteria ns pid (N + 1) sel 0).limit = N + 1 ∧
    (records.length = N + 1 → records.filter pred ≠ [] →
      Strategy.list g ns pid pred { limit := N, labelSelector := sel }
        = some (.ok { items := (records.filter pred).dropLast
                      continueTok := encodeContinue ((records.getD (records.length - 2) default).id)
                      resourceVersion := toString rv
                      remainingCount := some 1 }) ∧
      encodeContinue ((records.getD (records.length - 2) default).id) ≠ "") ∧
    (records.length = N + 1 → records.filter pred = [] →
      Strategy.list g ns pid pred { limit := N, labelSelector := sel } = none) ∧
    (records.length ≠ N + 1 →
      Strategy.list g ns pid pred { limit := N, labelSelector := sel }
        = some (.ok { items := records.filter pred
                      continueTok := ""
                      resourceVersion := toString rv
                      remainingCount := none })) ∧
    (∀ k, decodeContinue (encodeContinue k) = some k) ∧
    (∀ k before r, innerMatch (listCriteria ns pid (N + 1) sel k) before r = true →
        k ≠ 0 → k < r.id) := by
  have hlim : (if ({ limit := N, labelSelector := sel } : ListOpts).limit ≠ 0
      then ({ limit := N, labelSelector := sel } : ListOpts).limit + 1 else 0) = N + 1 := by
    simp [hN]
  have hcont : (if ({ limit := N, labelSelector := sel } : ListOpts).continueTok ≠ "" then
      (match decodeContinue ({ limit := N, labelSelector := sel } : ListOpts).continueTok with
       | some k => Except.ok k
       | none => Except.error MinkError.badContinueToken)
    else (Except.ok 0 : Except MinkError Nat)) = .ok 0 := by
    simp
  refine ⟨rfl, ?_, ?_, ?_, decodeContinue_encodeContinue, ?_⟩
  · intro hfull hsome
    constructor
    · unfold Strategy.list
      rw [hlim, hcont]
      dsimp only
      rw [hget]
      simp only [ne_eq]
      rw [if_pos ⟨by omega, hfull⟩]
      have hslice : goSliceDropLast (records.filter pred)
          = some ((records.filter pred).dropLast) := by
        unfold goSliceDropLast
        rw [if_neg hsome]
      rw [hslice]
    · exact encodeContinue_ne_empty _
  · intro hfull hnone
    unfold Strategy.list
    rw [hlim, hcont]
    dsimp only
    rw [hget]
    simp only [ne_eq]
    rw [if_pos ⟨by omega, hfull⟩]
    have hslice : goSliceDropLast (records.filter pred) = none := by
      unfold goSliceDropLast
      rw [if_pos hnone]
    rw [hslice]
  · intro hshort
    unfold Strategy.list
    rw [hlim, hcont]
    dsimp only
    rw [hget]
    simp only [ne_eq]
    rw [if_neg (by
      intro hc
      exact hshort hc.2)]
  · intro k before r hmatch hk
    unfold innerMatch listCriteria at hmatch
    simp only [Bool.and_eq_true] at hmatch
    have h2 := hmatch.1.1.2
    simp only [Bool.or_eq_true, decide_eq_true_eq] at h2
    rcases h2 with h0 | hgt
    · exact absurd h0 hk
    · exact hgt

/-- Claim C7, amended, witness: listing two live records with limit 1 and a
predicate that accepts them returns one item and the continuation token for
id 1. -/
theorem claim_C7_pagination_witness :
    Strategy.list c7g none "" (fun _ => true) { limit := 1 }
      = some (.ok { items := [c7r1], continueTok := encodeContinue 1,
                    resourceVersion := toString 2, remainingCount := some 1 }) ∧
    encodeContinue 1 ≠ "" := by
  have h := (claim_C7_pagination c7g none "" (fun _ => true) none 1 (by decide)
    (show GormDB.get c7g (listCriteria none "" (1 + 1) none 0)
        = .ok ([c7r1, c7r2], 2) from rfl)).2.1 rfl (by decide)
  exact ⟨h.1, h.2⟩

end Mink
